import Mathlib

/-!
Verification of the v8 baseline compiler sources (`code-stubs.cc`,
`full-codegen.cc`, `ia32/macro-assembler-ia32.cc`) against their
natural-language specification.  The C++ is shallowly embedded: heap and
cache state become explicit records threaded through the functions, code
objects become natural-number identifiers handed out by a fresh-name
counter, and emitted machine code becomes lists of abstract actions.
-/

namespace V8

/-! ## Code stub cache (`src/code-stubs.cc`)

A stub is identified by its major and minor keys.  The packing of the two
into the single dictionary key (`CodeStub::GetKey`, declared in the missing
header `code-stubs.h`) is modelled from the spec: "StubKey — (major tag,
minor integer ...).  Must be injective"; we use the pair itself, which is
the canonical injective encoding.  Code objects are identifiers allocated
by a counter, so two code objects are identical exactly when their
identifiers are equal. -/

/-- A stub key: major tag plus minor integer. -/
structure StubKey where
  major : Nat
  minor : Nat
deriving DecidableEq, Repr

/-- Stub descriptor: its key and whether it uses a custom cache slot
(`has_custom_cache()`). -/
structure Stub where
  key : StubKey
  hasCustomCache : Bool
deriving DecidableEq, Repr

/-- Code objects are opaque identifiers handed out by the allocator. -/
abbrev Code := Nat

/-- The mutable state touched by `CodeStub::GetCode` / `TryGetCode`:
the `Heap::code_stubs()` dictionary, the custom-cache slots, and the
code-object allocator (`Factory::NewCode` / `Heap::CreateCode`), modelled
as a fresh-identifier counter. -/
structure StubCacheState where
  dict : List (StubKey × Code)
  custom : StubKey → Option Code
  nextCode : Nat

/-- Dictionary lookup: `Heap::code_stubs()->FindEntry(GetKey())` plus
`ValueAt`. -/
def dictFind (d : List (StubKey × Code)) (k : StubKey) : Option Code :=
  match d with
  | [] => none
  | (k', c) :: rest => if k' = k then some c else dictFind rest k

/-- Dictionary update: `Factory::DictionaryAtNumberPut` /
`NumberDictionary::AtNumberPut` registering `k ↦ c`. -/
def dictPut (d : List (StubKey × Code)) (k : StubKey) (c : Code) :
    List (StubKey × Code) :=
  (k, c) :: d

/-- `CodeStub::FindCodeInCache` (code-stubs.cc, lines 38–46): consult the
custom cache when the stub has one, otherwise look the key up in the
`Heap::code_stubs()` dictionary. -/
def FindCodeInCache (s : Stub) (st : StubCacheState) : Option Code :=
  if s.hasCustomCache then st.custom s.key
  else dictFind st.dict s.key

/-- `CodeStub::GetCode` (code-stubs.cc, lines 81–115): on a cache hit
return the cached code object; on a miss generate a fresh code object,
register it (custom slot or dictionary), and return it. -/
def GetCode (s : Stub) (st : StubCacheState) : Code × StubCacheState :=
  match FindCodeInCache s st with
  | some code => (code, st)
  | none =>
      let newObject := st.nextCode
      if s.hasCustomCache then
        (newObject,
         { st with
             custom := fun k => if k = s.key then some newObject else st.custom k,
             nextCode := st.nextCode + 1 })
      else
        (newObject,
         { st with
             dict := dictPut st.dict s.key newObject,
             nextCode := st.nextCode + 1 })

/-- Failure marker returned by the fallible allocation paths. -/
inductive Failure where
  | retryAfterGC
deriving DecidableEq, Repr

/-- `CodeStub::TryGetCode` (code-stubs.cc, lines 118–149).  The fallible
allocations are driven by two oracles: `codeAllocOk` decides whether
`Heap::CreateCode` succeeds, `dictAllocOk` whether
`NumberDictionary::AtNumberPut` succeeds.  On code-allocation failure the
failure object is returned with no state change; on dictionary-allocation
failure the code is still returned and the cache is simply not updated
("do not fail if unable"). -/
def TryGetCode (s : Stub) (st : StubCacheState)
    (codeAllocOk dictAllocOk : Bool) :
    Except Failure Code × StubCacheState :=
  match FindCodeInCache s st with
  | some code => (.ok code, st)
  | none =>
      if codeAllocOk then
        let code := st.nextCode
        let st := { st with nextCode := st.nextCode + 1 }
        if s.hasCustomCache then
          (.ok code,
           { st with
               custom := fun k => if k = s.key then some code else st.custom k })
        else
          if dictAllocOk then
            (.ok code, { st with dict := dictPut st.dict s.key code })
          else
            (.ok code, st)
      else
        (.error .retryAfterGC, st)

/-! ## Control-flow tracker (`FullCodeGenerator::NestedStatement`)

The nesting stack is a list, innermost scope first.  The `Exit` methods of
`TryCatch` and `TryFinally` are taken from full-codegen.cc lines
1176–1190.  The base-class behaviour of plain breakable / iteration
scopes — accumulate operand-stack slots, emit nothing — and the
`IsBreakTarget` / `IsContinueTarget` predicates live in the missing header
`full-codegen.h` and are modelled from the spec: "a plain breakable only
accumulates operand-stack slots to drop"; "continue stops at the nearest
enclosing Iteration matching the label, break at the nearest enclosing
Breakable". -/

/-- One record of the nesting stack.  `stmtId` identifies the statement a
breakable/iteration scope belongs to; `slots` is the number of
operand-stack slots the scope holds; `finallyEntry` is the label of a
try/finally's finally block. -/
inductive NestedStatement where
  | breakable (stmtId : Nat) (slots : Nat)
  | iteration (stmtId : Nat) (slots : Nat)
  | tryCatch
  | tryFinally (finallyEntry : Nat)
deriving DecidableEq, Repr

/-- Actions emitted while unwinding nested scopes. -/
inductive EmitAction where
  | drop (n : Nat)
  | popTryHandler
  | callFinally (entry : Nat)
  | rethrow
  | jmp (label : Nat)
deriving DecidableEq, Repr

namespace NestedStatement

/-- `IsBreakTarget` — modelled from the spec: a breakable or iteration
scope is the break target when its statement matches (`Breakable` in the
header compares `statement_ == statement`; `Iteration` is a `Breakable`). -/
def isBreakTarget (target : Nat) : NestedStatement → Bool
  | breakable stmtId _ => stmtId = target
  | iteration stmtId _ => stmtId = target
  | _ => false

/-- `IsContinueTarget` — modelled from the spec: only an iteration scope
whose statement matches is a continue target. -/
def isContinueTarget (target : Nat) : NestedStatement → Bool
  | iteration stmtId _ => stmtId = target
  | _ => false

/-- `NestedStatement::Exit(stack_depth)`.  Plain breakable/iteration
scopes (modelled from the spec, defaults in the missing header) add their
operand-stack slots to the running depth and emit nothing.
`TryCatch::Exit` (full-codegen.cc 1185–1190) drops the accumulated slots,
pops the try handler and restarts the count at zero.  `TryFinally::Exit`
(full-codegen.cc 1176–1182) additionally calls the finally block before
returning zero. -/
def Exit (stackDepth : Nat) : NestedStatement → List EmitAction × Nat
  | breakable _ slots => ([], stackDepth + slots)
  | iteration _ slots => ([], stackDepth + slots)
  | tryCatch => ([.drop stackDepth, .popTryHandler], 0)
  | tryFinally entry =>
      ([.drop stackDepth, .popTryHandler, .callFinally entry], 0)

end NestedStatement

/-- Result of the outward walk at a break/continue site: the scopes whose
`Exit` ran (in order), the actions they emitted, the final accumulated
stack depth, and the resolved target scope. -/
structure WalkResult where
  exited : List NestedStatement
  actions : List EmitAction
  depth : Nat
  target : NestedStatement
deriving DecidableEq, Repr

/-- The `while (!current->IsTarget(...)) { stack_depth = current->Exit(...) }`
loop shared by `VisitBreakStatement` and `VisitContinueStatement`
(full-codegen.cc 724–753), instrumented with the list of exited scopes.
Returns `none` when no scope in the stack is the target. -/
def walkToTarget (isTarget : NestedStatement → Bool) :
    List NestedStatement → Nat → Option WalkResult
  | [], _ => none
  | current :: outer, stackDepth =>
      if isTarget current then
        some ⟨[], [], stackDepth, current⟩
      else
        match walkToTarget isTarget outer (current.Exit stackDepth).2 with
        | none => none
        | some r =>
            some ⟨current :: r.exited,
                  (current.Exit stackDepth).1 ++ r.actions,
                  r.depth, r.target⟩

/-- Result of the unconditional outward walk at a return site. -/
structure ReturnWalkResult where
  exited : List NestedStatement
  actions : List EmitAction
  depth : Nat
deriving DecidableEq, Repr

/-- The walk of `VisitReturnStatement` (full-codegen.cc 763–769): exit
every scope on the nesting stack, out to the function boundary,
unconditionally, instrumented with the scopes whose `Exit` ran. -/
def returnWalk : List NestedStatement → Nat → ReturnWalkResult
  | [], stackDepth => ⟨[], [], stackDepth⟩
  | current :: outer, stackDepth =>
      let r := returnWalk outer (current.Exit stackDepth).2
      ⟨current :: r.exited, (current.Exit stackDepth).1 ++ r.actions, r.depth⟩

/-- `FullCodeGenerator::VisitBreakStatement` (full-codegen.cc 740–753):
walk outward to the break target, then drop the accumulated slots and
jump to the target's break label (labels are modelled by the target's
statement id). -/
def VisitBreakStatement (target : Nat) (stack : List NestedStatement) :
    Option (List EmitAction) :=
  match walkToTarget (·.isBreakTarget target) stack 0 with
  | none => none
  | some r => some (r.actions ++ [.drop r.depth, .jmp target])

/-- `FullCodeGenerator::VisitContinueStatement` (full-codegen.cc 724–737):
walk outward to the continue target, drop the slots, jump to the loop's
continue label. -/
def VisitContinueStatement (target : Nat) (stack : List NestedStatement) :
    Option (List EmitAction) :=
  match walkToTarget (·.isContinueTarget target) stack 0 with
  | none => none
  | some r => some (r.actions ++ [.drop r.depth, .jmp target])

/-- `FullCodeGenerator::VisitReturnStatement` (full-codegen.cc 756–772):
exit every nested scope, then drop the remaining slots. -/
def VisitReturnStatement (stack : List NestedStatement) : List EmitAction :=
  let r := returnWalk stack 0
  r.actions ++ [.drop r.depth]

/-- Total number of operand-stack slots removed by a list of emitted
actions. -/
def droppedSlots : List EmitAction → Nat
  | [] => 0
  | .drop m :: rest => m + droppedSlots rest
  | _ :: rest => droppedSlots rest

/-- Operand-stack slots held by one scope record. -/
def scopeSlots : NestedStatement → Nat
  | .breakable _ slots => slots
  | .iteration _ slots => slots
  | _ => 0

/-- Total operand-stack slots held by a list of scopes. -/
def slotsSum : List NestedStatement → Nat
  | [] => 0
  | s :: rest => scopeSlots s + slotsSum rest

/-! ## The bailout gate (`FullCodeGenSyntaxChecker`, full-codegen.cc 39–484)

The AST classes live in the missing header `ast.h`; the node shapes below
are modelled from how the checker consumes them, keeping for each node
exactly the data the checker inspects (variable storage classes, operator
tokens, callee classification).  `SyntaxVisit` mirrors the checker's
visitors, with `BAILOUT` clearing `has_supported_syntax_` and
`CHECK_BAILOUT` encoded as an early return; every `Visit` entry is logged
so that the extent of the traversal is observable. -/

/-- Storage classification of a resolved variable (`Slot::Type`). -/
inductive SlotType where
  | parameter
  | localSlot
  | contextSlot
  | lookup
deriving DecidableEq, Repr

/-- A variable proxy's slot: absent (parameter rewritten to an arguments
property) or a typed slot. -/
inductive ProxySlot where
  | noSlot
  | slotOf (t : SlotType)
deriving DecidableEq, Repr

/-- Unary operator tokens distinguished by `VisitUnaryOperation`. -/
inductive UnaryOp where
  | voidOp
  | notOp
  | typeofOp
  | bitNot
  | deleteOp
  | addOp
  | subOp
deriving DecidableEq, Repr

mutual

/-- Syntax-tree nodes, carrying the data `FullCodeGenSyntaxChecker`
inspects. -/
inductive Ast where
  | block (stmts : AstList)
  | expressionStatement (e : Ast)
  | emptyStatement
  | ifStatement (cond thenPart elsePart : Ast)
  | continueStatement
  | breakStatement
  | returnStatement (e : Ast)
  | withEnterStatement (e : Ast)
  | withExitStatement
  | switchStatement
  | doWhileStatement (cond body : Ast)
  | whileStatement (cond body : Ast)
  | forInStatement
  | tryCatchStatement (tryBlock catchBlock : Ast)
  | tryFinallyStatement (tryBlock finallyBlock : Ast)
  | debuggerStatement
  | declaration (proxy : DeclProxy) (fn : OptFun)
  | functionLiteral
  | functionBoilerplateLiteral
  | conditional (cond thenExpr elseExpr : Ast)
  | variableProxy (isGlobal : Bool) (slot : ProxySlot)
  | literal
  | assignment (initConst : Bool) (target : AssignTarget) (value : Ast)
  | throwExpr (exception : Ast)
  | property (obj key : Ast)
  | call (callee : Callee) (args : AstList)
  | callNew (fn : Ast) (args : AstList)
  | callRuntime (isInline : Bool) (args : AstList)
  | unaryOperation (op : UnaryOp) (sub : Ast)
  | binaryOperation (left right : Ast)
  | compareOperation (left right : Ast)
  | thisFunction

/-- A `ZoneList` of nodes. -/
inductive AstList where
  | nil
  | cons (head : Ast) (tail : AstList)

/-- A declaration's proxy: plain variable, or rewritten to a property
access (`decl->proxy()->AsProperty()`). -/
inductive DeclProxy where
  | plainProxy
  | propertyProxy (obj key : Ast)

/-- A declaration's optional function (`decl->fun()`). -/
inductive OptFun where
  | noFun
  | funLit (f : Ast)

/-- Classification of a call's function expression performed by
`VisitCall` (full-codegen.cc 362–390). -/
inductive Callee where
  | globalVar
  | evalVar
  | lookupVar
  | propertyCallee (obj key : Ast)
  | exprCallee (f : Ast)

/-- Assignment targets distinguished by `VisitAssignment`
(full-codegen.cc 315–347). -/
inductive AssignTarget where
  | variableTarget (constMode isGlobal : Bool) (slotType : SlotType)
  | propertyTarget (obj key : Ast)
  | invalidTarget

end

/-- State of the checker: the `has_supported_syntax_` flag plus a log of
every node the checker's `Visit` is invoked on, in visit order. -/
structure CheckerState where
  hasSupportedSyntax : Bool
  visitLog : List Ast

/-- `BAILOUT(reason)` (full-codegen.cc 39–46): clear the flag. -/
def bailout (st : CheckerState) : CheckerState :=
  { st with hasSupportedSyntax := false }

mutual

/-- `FullCodeGenSyntaxChecker::Visit` dispatch, one case per visitor
(full-codegen.cc 93–481).  `CHECK_BAILOUT` appears as an early return on
a cleared flag. -/
def SyntaxVisit (e : Ast) (st₀ : CheckerState) : CheckerState :=
  let st := { st₀ with visitLog := st₀.visitLog ++ [e] }
  match e with
  | .block stmts => SyntaxVisitStatements stmts st
  | .expressionStatement e1 => SyntaxVisit e1 st
  | .emptyStatement => st
  | .ifStatement cond thenPart elsePart =>
      let st := SyntaxVisit cond st
      if !st.hasSupportedSyntax then st else
      let st := SyntaxVisit thenPart st
      if !st.hasSupportedSyntax then st else
      SyntaxVisit elsePart st
  | .continueStatement => st
  | .breakStatement => st
  | .returnStatement e1 => SyntaxVisit e1 st
  | .withEnterStatement e1 => SyntaxVisit e1 st
  | .withExitStatement => st
  | .switchStatement => bailout st
  | .doWhileStatement cond body =>
      let st := SyntaxVisit cond st
      if !st.hasSupportedSyntax then st else
      SyntaxVisit body st
  | .whileStatement cond body =>
      let st := SyntaxVisit cond st
      if !st.hasSupportedSyntax then st else
      SyntaxVisit body st
  | .forInStatement => bailout st
  | .tryCatchStatement tryBlock catchBlock =>
      let st := SyntaxVisit tryBlock st
      if !st.hasSupportedSyntax then st else
      SyntaxVisit catchBlock st
  | .tryFinallyStatement tryBlock finallyBlock =>
      let st := SyntaxVisit tryBlock st
      if !st.hasSupportedSyntax then st else
      SyntaxVisit finallyBlock st
  | .debuggerStatement => st
  | .declaration proxy fn =>
      -- VisitDeclaration (full-codegen.cc 93–103): no CHECK_BAILOUT.
      let st :=
        match proxy with
        | .plainProxy => st
        | .propertyProxy obj key => SyntaxVisit key (SyntaxVisit obj st)
      match fn with
      | .noFun => st
      | .funLit f => SyntaxVisit f st
  | .functionLiteral => st
  | .functionBoilerplateLiteral => bailout st
  | .conditional cond thenExpr elseExpr =>
      let st := SyntaxVisit cond st
      if !st.hasSupportedSyntax then st else
      let st := SyntaxVisit thenExpr st
      if !st.hasSupportedSyntax then st else
      SyntaxVisit elseExpr st
  | .variableProxy isGlobal slot =>
      if !isGlobal && slot = .slotOf .lookup then bailout st else st
  | .literal => st
  | .assignment initConst target value =>
      if initConst then bailout st else
      match target with
      | .variableTarget constMode isGlobal slotType =>
          if constMode then bailout st
          else if !isGlobal && slotType = .lookup then bailout st
          else SyntaxVisit value st
      | .propertyTarget obj key =>
          let st := SyntaxVisit obj st
          if !st.hasSupportedSyntax then st else
          let st := SyntaxVisit key st
          if !st.hasSupportedSyntax then st else
          SyntaxVisit value st
      | .invalidTarget => bailout st
  | .throwExpr exception => SyntaxVisit exception st
  | .property obj key =>
      let st := SyntaxVisit obj st
      if !st.hasSupportedSyntax then st else
      SyntaxVisit key st
  | .call callee args =>
      match callee with
      | .evalVar => bailout st
      | .globalVar => SyntaxVisitStatements args st
      | .lookupVar => bailout st
      | .propertyCallee obj key =>
          let st := SyntaxVisit obj st
          if !st.hasSupportedSyntax then st else
          let st := SyntaxVisit key st
          if !st.hasSupportedSyntax then st else
          SyntaxVisitStatements args st
      | .exprCallee f =>
          -- Note: the source has no CHECK_BAILOUT between Visit(fun) and
          -- the argument loop (full-codegen.cc 381–390).
          let st := SyntaxVisit f st
          SyntaxVisitStatements args st
  | .callNew fn args =>
      let st := SyntaxVisit fn st
      if !st.hasSupportedSyntax then st else
      SyntaxVisitStatements args st
  | .callRuntime isInline args =>
      if isInline then bailout st
      else SyntaxVisitStatements args st
  | .unaryOperation op sub =>
      match op with
      | .voidOp => SyntaxVisit sub st
      | .notOp => SyntaxVisit sub st
      | .typeofOp => SyntaxVisit sub st
      | .bitNot => bailout st
      | .deleteOp => bailout st
      | .addOp => bailout st
      | .subOp => bailout st
  | .binaryOperation left right =>
      let st := SyntaxVisit left st
      if !st.hasSupportedSyntax then st else
      SyntaxVisit right st
  | .compareOperation left right =>
      let st := SyntaxVisit left st
      if !st.hasSupportedSyntax then st else
      SyntaxVisit right st
  | .thisFunction => st

/-- `VisitStatements` / `VisitDeclarations` / the argument loops: visit
each element, `CHECK_BAILOUT` after each (full-codegen.cc 76–90).  Note
the element is visited before the flag is consulted. -/
def SyntaxVisitStatements (l : AstList) (st : CheckerState) : CheckerState :=
  match l with
  | .nil => st
  | .cons head tail =>
      let st := SyntaxVisit head st
      if !st.hasSupportedSyntax then st
      else SyntaxVisitStatements tail st

end

mutual

/-- The spec's acceptance criterion, written from its words: "Gate
acceptance ⇔ no construct from the explicit unsupported list is reachable
without passing through an already-rejecting ancestor."  A node's subtree
rejects when the node itself is on the unsupported list or a child the
checker would reach rejects. -/
def gateRejects : Ast → Bool
  | .block stmts => anyRejects stmts
  | .expressionStatement e1 => gateRejects e1
  | .emptyStatement => false
  | .ifStatement cond thenPart elsePart =>
      gateRejects cond || gateRejects thenPart || gateRejects elsePart
  | .continueStatement => false
  | .breakStatement => false
  | .returnStatement e1 => gateRejects e1
  | .withEnterStatement e1 => gateRejects e1
  | .withExitStatement => false
  | .switchStatement => true
  | .doWhileStatement cond body => gateRejects cond || gateRejects body
  | .whileStatement cond body => gateRejects cond || gateRejects body
  | .forInStatement => true
  | .tryCatchStatement tryBlock catchBlock =>
      gateRejects tryBlock || gateRejects catchBlock
  | .tryFinallyStatement tryBlock finallyBlock =>
      gateRejects tryBlock || gateRejects finallyBlock
  | .debuggerStatement => false
  | .declaration proxy fn =>
      (match proxy with
       | .plainProxy => false
       | .propertyProxy obj key => gateRejects obj || gateRejects key) ||
      (match fn with
       | .noFun => false
       | .funLit f => gateRejects f)
  | .functionLiteral => false
  | .functionBoilerplateLiteral => true
  | .conditional cond thenExpr elseExpr =>
      gateRejects cond || gateRejects thenExpr || gateRejects elseExpr
  | .variableProxy isGlobal slot => !isGlobal && slot = .slotOf .lookup
  | .literal => false
  | .assignment initConst target value =>
      initConst ||
      (match target with
       | .variableTarget constMode isGlobal slotType =>
           constMode || (!isGlobal && slotType = .lookup) || gateRejects value
       | .propertyTarget obj key =>
           gateRejects obj || gateRejects key || gateRejects value
       | .invalidTarget => true)
  | .throwExpr exception => gateRejects exception
  | .property obj key => gateRejects obj || gateRejects key
  | .call callee args =>
      (match callee with
       | .evalVar => true
       | .globalVar => anyRejects args
       | .lookupVar => true
       | .propertyCallee obj key =>
           gateRejects obj || gateRejects key || anyRejects args
       | .exprCallee f => gateRejects f || anyRejects args)
  | .callNew fn args => gateRejects fn || anyRejects args
  | .callRuntime isInline args => isInline || anyRejects args
  | .unaryOperation op sub =>
      (match op with
       | .voidOp => gateRejects sub
       | .notOp => gateRejects sub
       | .typeofOp => gateRejects sub
       | .bitNot => true
       | .deleteOp => true
       | .addOp => true
       | .subOp => true)
  | .binaryOperation left right => gateRejects left || gateRejects right
  | .compareOperation left right => gateRejects left || gateRejects right
  | .thisFunction => false

/-- Any node of a list rejects. -/
def anyRejects : AstList → Bool
  | .nil => false
  | .cons head tail => gateRejects head || anyRejects tail

end

/-- A node is itself on the unsupported list (the local `BAILOUT`
condition, not looking at children). -/
def rejectsHere : Ast → Bool
  | .switchStatement => true
  | .forInStatement => true
  | .functionBoilerplateLiteral => true
  | .variableProxy isGlobal slot => !isGlobal && slot = .slotOf .lookup
  | .assignment initConst target _ =>
      initConst ||
      (match target with
       | .variableTarget constMode isGlobal slotType =>
           constMode || (!isGlobal && slotType = .lookup)
       | .propertyTarget _ _ => false
       | .invalidTarget => true)
  | .call callee _ =>
      (match callee with
       | .evalVar => true
       | .lookupVar => true
       | _ => false)
  | .callRuntime isInline _ => isInline
  | .unaryOperation op _ =>
      (match op with
       | .bitNot => true
       | .deleteOp => true
       | .addOp => true
       | .subOp => true
       | _ => false)
  | _ => false

/-- `FullCodeGenSyntaxChecker::Check` (full-codegen.cc 55–73): bail out on
context-allocated parameters, then visit declarations and statements with
`CHECK_BAILOUT` in between. -/
def SyntaxCheck (hasContextParams : Bool) (decls body : AstList)
    (st : CheckerState) : CheckerState :=
  if hasContextParams then bailout st
  else
    let st := SyntaxVisitStatements decls st
    if !st.hasSupportedSyntax then st
    else SyntaxVisitStatements body st

/-- Initial checker state: supported, nothing visited. -/
def initialChecker : CheckerState := ⟨true, []⟩

/-! ## Short-circuit logical operators
(`FullCodeGenerator::EmitLogicalOperation`, full-codegen.cc 615–680)

The compiler is embedded as a function from expressions to lists of
abstract instructions with numbered labels; the source's `Label` objects
become labels drawn from a fresh counter.  Leaf evaluation under a given
expression context (`Apply`, defined in the missing platform file
`ia32/full-codegen-ia32.cc`) is modelled from the spec: "Test → branch
directly to one of two labels ...; ValueTest/TestValue → materialize the
value **and** branch".  Values are naturals; `0` is the falsy value. -/

/-- Expressions fed to `EmitLogicalOperation`: leaves carry an observable
side-effect identifier and the value they produce. -/
inductive LExpr where
  | atom (effectId : Nat) (value : Nat)
  | andE (left right : LExpr)
  | orE (left right : LExpr)
deriving DecidableEq, Repr

/-- `Expression::Context` together with the label fields
(`true_label_` / `false_label_`) the context carries. -/
inductive ExprContext where
  | effect
  | value
  | test (trueLabel falseLabel : Nat)
  | valueTest (trueLabel falseLabel : Nat)
  | testValue (trueLabel falseLabel : Nat)
deriving DecidableEq, Repr

/-- Abstract emitted instructions: leaf evaluation into the current
location, a truthiness branch, and a label binding. -/
inductive CInstr where
  | atomEval (effectId : Nat) (value : Nat)
  | branch (trueLabel falseLabel : Nat)
  | bind (label : Nat)
deriving DecidableEq, Repr

/-- The code emitter.  The `andE`/`orE` cases transcribe
`EmitLogicalOperation`'s two switches (full-codegen.cc 621–674): allocate
`eval_right` and `done`, compile the left operand under the derived
context, bind `eval_right`, compile the right operand under the original
context, bind `done`.  The leaf case is the spec-modelled `Apply`. -/
def compileExpr : LExpr → ExprContext → Nat → List CInstr × Nat
  | .atom effectId v, ctx, n =>
      match ctx with
      | .effect => ([.atomEval effectId v], n)
      | .value => ([.atomEval effectId v], n)
      | .test t f => ([.atomEval effectId v, .branch t f], n)
      | .valueTest t f => ([.atomEval effectId v, .branch t f], n)
      | .testValue t f => ([.atomEval effectId v, .branch t f], n)
  | .andE a b, ctx, n =>
      -- eval_right is label `n`, done is label `n + 1`.
      let leftCtx :=
        match ctx with
        | .effect => ExprContext.test n (n + 1)
        | .value => ExprContext.testValue n (n + 1)
        | .test _ f => ExprContext.test n f
        | .valueTest _ f => ExprContext.test n f
        | .testValue _ f => ExprContext.testValue n f
      let rightCtx :=
        match ctx with
        | .effect => ExprContext.effect
        | .value => ExprContext.value
        | .test t f => ExprContext.test t f
        | .valueTest t f => ExprContext.valueTest t f
        | .testValue t f => ExprContext.testValue t f
      let cL := compileExpr a leftCtx (n + 2)
      let cR := compileExpr b rightCtx cL.2
      (cL.1 ++ [.bind n] ++ cR.1 ++ [.bind (n + 1)], cR.2)
  | .orE a b, ctx, n =>
      -- eval_right is label `n`, done is label `n + 1`.
      let leftCtx :=
        match ctx with
        | .effect => ExprContext.test (n + 1) n
        | .value => ExprContext.valueTest (n + 1) n
        | .test t _ => ExprContext.test t n
        | .valueTest t _ => ExprContext.valueTest t n
        | .testValue t _ => ExprContext.test t n
      let rightCtx :=
        match ctx with
        | .effect => ExprContext.effect
        | .value => ExprContext.value
        | .test t f => ExprContext.test t f
        | .valueTest t f => ExprContext.valueTest t f
        | .testValue t f => ExprContext.testValue t f
      let cL := compileExpr a leftCtx (n + 2)
      let cR := compileExpr b rightCtx cL.2
      (cL.1 ++ [.bind n] ++ cR.1 ++ [.bind (n + 1)], cR.2)

/-- Result of running a code segment: fall through the end with the
location holding `loc`, or escape through a label not bound in the
segment. -/
inductive ExecResult where
  | halt (loc : Nat) (log : List Nat)
  | escape (label : Nat) (loc : Nat) (log : List Nat)
deriving DecidableEq, Repr

/-- Find the code following the binding of label `l` (all emitted jumps
are forward). -/
def findLabel (l : Nat) : List CInstr → Option (List CInstr)
  | [] => none
  | .bind l' :: rest => if l' = l then some rest else findLabel l rest
  | .atomEval _ _ :: rest => findLabel l rest
  | .branch _ _ :: rest => findLabel l rest

/-- Termination measure for `exec`: following a label strictly shortens
the remaining code. -/
def findLabel_length {l : Nat} :
    ∀ {c : List CInstr} {c' : List CInstr},
      findLabel l c = some c' → c'.length < c.length := by
  intro c
  induction c with
  | nil => intro c' h; simp [findLabel] at h
  | cons i rest ih =>
      intro c' h
      cases i with
      | bind l' =>
          by_cases hl : l' = l
          · simp [findLabel, hl] at h
            simp [← h]
          · simp [findLabel, hl] at h
            exact Nat.lt_succ_of_lt (ih h)
      | atomEval e v =>
          simp [findLabel] at h
          exact Nat.lt_succ_of_lt (ih h)
      | branch t f =>
          simp [findLabel] at h
          exact Nat.lt_succ_of_lt (ih h)

/-- Execute a code segment.  `loc` models the result location
(register/stack slot); the log collects leaf side effects in the order
they occur. -/
def exec : List CInstr → Nat → List Nat → ExecResult
  | [], loc, log => .halt loc log
  | .atomEval effectId v :: rest, _, log => exec rest v (log ++ [effectId])
  | .bind _ :: rest, loc, log => exec rest loc log
  | .branch t f :: rest, loc, log =>
      let target := if loc ≠ 0 then t else f
      match h : findLabel target rest with
      | some rest' => exec rest' loc log
      | none => .escape target loc log
termination_by c _ _ => c.length
decreasing_by
  all_goals simp_wf
  all_goals first
    | simp
    | exact Nat.lt_succ_of_lt (findLabel_length h)

/-- Truthiness of a value. -/
def truthy (v : Nat) : Bool := v != 0

/-- Reference value semantics of `&&` / `||`, written from the spec:
"(falsy, anything) → falsy's value...; (truthy, X) → X's value". -/
def evalLExpr : LExpr → Nat
  | .atom _ v => v
  | .andE a b => if truthy (evalLExpr a) then evalLExpr b else evalLExpr a
  | .orE a b => if truthy (evalLExpr a) then evalLExpr a else evalLExpr b

/-- Reference side-effect semantics, written from the spec: "the right
operand's side effects must occur only when control logically reaches
it". -/
def effectsOf : LExpr → List Nat
  | .atom effectId _ => [effectId]
  | .andE a b =>
      effectsOf a ++ (if truthy (evalLExpr a) then effectsOf b else [])
  | .orE a b =>
      effectsOf a ++ (if truthy (evalLExpr a) then [] else effectsOf b)

/-- The labels carried by a context are all below `n`. -/
def ctxBelow : ExprContext → Nat → Prop
  | .effect, _ => True
  | .value, _ => True
  | .test t f, n => t < n ∧ f < n
  | .valueTest t f, n => t < n ∧ f < n
  | .testValue t f, n => t < n ∧ f < n

/-- What running a compiled segment must do, per context, written from the
spec's context model: `Effect` discards the result, `Value` leaves the
expression's value in the location and falls through, `Test` escapes to
the label matching the truthiness, `ValueTest` / `TestValue` escape with
the value additionally materialized on the true / false edge
respectively.  In every case the logged side effects are exactly
`effectsOf e`. -/
def ctxSpec (e : LExpr) (c : List CInstr) : ExprContext → Prop
  | .effect => ∀ loc log, ∃ v, exec c loc log = .halt v (log ++ effectsOf e)
  | .value => ∀ loc log,
      exec c loc log = .halt (evalLExpr e) (log ++ effectsOf e)
  | .test t f => ∀ loc log, ∃ v, exec c loc log =
      .escape (if truthy (evalLExpr e) then t else f) v (log ++ effectsOf e)
  | .valueTest t f => ∀ loc log, ∃ v,
      exec c loc log =
        .escape (if truthy (evalLExpr e) then t else f) v
          (log ++ effectsOf e) ∧
      (truthy (evalLExpr e) = true → v = evalLExpr e)
  | .testValue t f => ∀ loc log, ∃ v,
      exec c loc log =
        .escape (if truthy (evalLExpr e) then t else f) v
          (log ++ effectsOf e) ∧
      (truthy (evalLExpr e) = false → v = evalLExpr e)

/-! ## The while loop (`FullCodeGenerator::VisitWhileStatement`,
full-codegen.cc 839–867) and the stack-limit check
(`MacroAssembler::StackLimitCheck`, ia32/macro-assembler-ia32.cc 216–220)

The emitted loop skeleton is embedded as a fixed instruction list; body
and condition evaluation are abstract single instructions, and the two
runtime-dependent outcomes — whether `cmp esp, stack_limit; j(below)`
trips and what the condition evaluates to — are oracles indexed by the
number of times each instruction has executed. -/

/-- Instructions of the emitted loop skeleton. -/
inductive WInstr where
  | jmp (l : Nat)
  | bindLabel (l : Nat)
  | execBody
  | stackLimitCheck (onOverflow : Nat)
  | testCond (ifTrue ifFalse : Nat)
  | callStackStub
deriving DecidableEq, Repr

/-- Observable events of a run of the loop. -/
inductive WEvent where
  | check
  | handler
  | test
  | body
deriving DecidableEq, Repr

/-- Labels of the while skeleton: `0` = `body`, `1` = `continue_target`,
`2` = `stack_limit_hit`, `3` = `stack_check_success`,
`4` = `break_target`. -/
def whileCode : List WInstr :=
  [ .jmp 1,              -- __ jmp(loop_statement.continue_target())
    .bindLabel 0,        -- __ bind(&body)
    .execBody,           -- Visit(stmt->body())
    .bindLabel 1,        -- __ bind(loop_statement.continue_target())
    .stackLimitCheck 2,  -- __ StackLimitCheck(&stack_limit_hit)
    .bindLabel 3,        -- __ bind(&stack_check_success)
    .testCond 0 4,       -- VisitForControl(stmt->cond(), &body, break)
    .bindLabel 2,        -- __ bind(&stack_limit_hit)
    .callStackStub,      -- __ CallStub(&stack_stub)
    .jmp 3,              -- __ jmp(&stack_check_success)
    .bindLabel 4 ]       -- __ bind(loop_statement.break_target())

/-- Position of a label's binding in a program. -/
def labelPos (prog : List WInstr) (l : Nat) : Nat :=
  prog.findIdx (fun i => i == .bindLabel l)

/-- Shift an oracle by one consumed answer. -/
def shiftOracle (o : Nat → Bool) : Nat → Bool := fun n => o (n + 1)

/-- Run the emitted loop code.  `trips` answers the `n`-th stack-limit
check ("is esp below the limit?"); `conds` answers the `n`-th condition
test.  Returns the event trace on normal halt, `none` when fuel runs
out. -/
def wrun (prog : List WInstr) :
    Nat → Nat → (Nat → Bool) → (Nat → Bool) → List WEvent →
    Option (List WEvent)
  | 0, _, _, _, _ => none
  | fuel + 1, pc, trips, conds, log =>
      match prog[pc]? with
      | none => some log
      | some i =>
          match i with
          | .jmp l => wrun prog fuel (labelPos prog l) trips conds log
          | .bindLabel _ => wrun prog fuel (pc + 1) trips conds log
          | .execBody =>
              wrun prog fuel (pc + 1) trips conds (log ++ [.body])
          | .stackLimitCheck l =>
              if trips 0 then
                wrun prog fuel (labelPos prog l) (shiftOracle trips) conds
                  (log ++ [.check])
              else
                wrun prog fuel (pc + 1) (shiftOracle trips) conds
                  (log ++ [.check])
          | .testCond ifTrue ifFalse =>
              if conds 0 then
                wrun prog fuel (labelPos prog ifTrue) trips
                  (shiftOracle conds) (log ++ [.test])
              else
                wrun prog fuel (labelPos prog ifFalse) trips
                  (shiftOracle conds) (log ++ [.test])
          | .callStackStub =>
              wrun prog fuel (pc + 1) trips conds (log ++ [.handler])

/-- Events of one arrival at the loop's continue target: the stack check,
the overflow handler if the check trips, then the condition test. -/
def cycleEvents (trip : Bool) : List WEvent :=
  .check :: (if trip then [.handler] else []) ++ [.test]

/-- Reference trace of the loop for `n` body executions: a check/test
cycle before each body, and a final cycle whose test fails. -/
def whileTrace : Nat → (Nat → Bool) → (Nat → Bool) → List WEvent
  | 0, trips, _ => cycleEvents (trips 0)
  | n + 1, trips, conds =>
      cycleEvents (trips 0) ++ [.body] ++
        whileTrace n (shiftOracle trips) (shiftOracle conds)

/-- Number of stack-limit trips among the `n + 1` checks the loop
performs for `n` body executions. -/
def countTrips : Nat → (Nat → Bool) → Nat
  | 0, trips => if trips 0 then 1 else 0
  | n + 1, trips =>
      (if trips 0 then 1 else 0) + countTrips n (shiftOracle trips)

/-! ## `FullCodeGenerator::MakeCode` (full-codegen.cc 489–503)

The platform code generator (`cgen.Generate(fun)`, in the missing
platform file) is abstracted by its outcome: whether the AST recursion
overflowed the compile-time stack, and the code produced otherwise.
`Top::has_pending_exception()` is the isolate flag the source asserts
clear on the overflow path. -/

/-- Outcome of `FullCodeGenerator::Generate` on a function. -/
structure CodegenOutcome where
  hasStackOverflow : Bool
  generatedCode : Code
deriving DecidableEq, Repr

/-- The isolate state `MakeCode` can observe (`Top`). -/
structure TopState where
  pendingException : Bool
deriving DecidableEq, Repr

/-- `FullCodeGenerator::MakeCode`: if the code generator recorded a
compile-time stack overflow, return the null handle (`none`), touching no
isolate state; otherwise hand the code through the epilogue. -/
def MakeCode (gen : CodegenOutcome) (top : TopState) :
    Option Code × TopState :=
  if gen.hasStackOverflow then (none, top)
  else (some gen.generatedCode, top)

/-! # Theorems -/

/-! ## Stub cache lemmas -/

theorem dictFind_put_self (d : List (StubKey × Code)) (k : StubKey)
    (c : Code) : dictFind (dictPut d k c) k = some c := by
  simp [dictPut, dictFind]

theorem dictFind_put_ne (d : List (StubKey × Code)) {k k' : StubKey}
    (c : Code) (h : k' ≠ k) :
    dictFind (dictPut d k' c) k = dictFind d k := by
  simp [dictPut, dictFind, h]

theorem getCode_hit {s : Stub} {st : StubCacheState} {c : Code}
    (h : FindCodeInCache s st = some c) : GetCode s st = (c, st) := by
  unfold GetCode
  rw [h]

theorem getCode_miss_dict {s : Stub} {st : StubCacheState}
    (h : FindCodeInCache s st = none) (hc : s.hasCustomCache = false) :
    GetCode s st =
      (st.nextCode,
       { st with dict := dictPut st.dict s.key st.nextCode,
                 nextCode := st.nextCode + 1 }) := by
  unfold GetCode
  rw [h]
  simp [hc]

theorem findCodeInCache_after_getCode (s : Stub) (st : StubCacheState) :
    FindCodeInCache s (GetCode s st).2 = some (GetCode s st).1 := by
  unfold GetCode
  cases h : FindCodeInCache s st with
  | some c => simpa using h
  | none =>
      cases hc : s.hasCustomCache with
      | true => simp [FindCodeInCache, hc]
      | false => simp [FindCodeInCache, hc, dictFind_put_self]

/-- C1: repeated `GetCode` calls with equal stub keys return the identical
cached code object — the second call is a cache hit that changes nothing
(in particular the code allocator is untouched, so no code is
regenerated); the first call on a miss registers the object under the
stub's key; and two stubs with the same major tag but distinct keys keep
distinct dictionary entries, each still mapping to its own object after
both calls. -/
theorem getCode_cache_identity :
    (∀ (s : Stub) (st : StubCacheState),
        (GetCode s (GetCode s st).2).1 = (GetCode s st).1 ∧
        (GetCode s (GetCode s st).2).2 = (GetCode s st).2) ∧
    (∀ (s : Stub) (st : StubCacheState),
        FindCodeInCache s (GetCode s st).2 = some (GetCode s st).1) ∧
    (∀ (s₁ s₂ : Stub) (st : StubCacheState),
        s₁.key.major = s₂.key.major → s₁.key ≠ s₂.key →
        s₁.hasCustomCache = false → s₂.hasCustomCache = false →
        FindCodeInCache s₁ (GetCode s₂ (GetCode s₁ st).2).2 =
          some (GetCode s₁ st).1 ∧
        FindCodeInCache s₂ (GetCode s₂ (GetCode s₁ st).2).2 =
          some (GetCode s₂ (GetCode s₁ st).2).1) := by
  refine ⟨?_, findCodeInCache_after_getCode, ?_⟩
  · intro s st
    rw [getCode_hit (findCodeInCache_after_getCode s st)]
    exact ⟨rfl, rfl⟩
  · intro s₁ s₂ st _hmaj hk h₁ h₂
    refine ⟨?_, findCodeInCache_after_getCode s₂ (GetCode s₁ st).2⟩
    have h1 := findCodeInCache_after_getCode s₁ st
    -- The second stub's call either hits (no mutation) or registers under
    -- a different dictionary key.
    cases hfind : FindCodeInCache s₂ (GetCode s₁ st).2 with
    | some c => rw [getCode_hit hfind]; exact h1
    | none =>
        rw [getCode_miss_dict hfind h₂]
        simp only [FindCodeInCache, h₁, Bool.false_eq_true, if_false] at h1 ⊢
        rw [dictFind_put_ne _ _ (fun h => hk h.symm)]
        exact h1

theorem getCode_cache_identity_witness :
    (⟨⟨4, 1⟩, false⟩ : Stub).key.major = (⟨⟨4, 2⟩, false⟩ : Stub).key.major ∧
    (⟨⟨4, 1⟩, false⟩ : Stub).key ≠ (⟨⟨4, 2⟩, false⟩ : Stub).key ∧
    (FindCodeInCache ⟨⟨4, 1⟩, false⟩
        (GetCode ⟨⟨4, 2⟩, false⟩
          (GetCode ⟨⟨4, 1⟩, false⟩ ⟨[], fun _ => none, 0⟩).2).2 =
      some (GetCode ⟨⟨4, 1⟩, false⟩ ⟨[], fun _ => none, 0⟩).1) := by
  refine ⟨rfl, by decide, ?_⟩
  exact (getCode_cache_identity.2.2 ⟨⟨4, 1⟩, false⟩ ⟨⟨4, 2⟩, false⟩
    ⟨[], fun _ => none, 0⟩ rfl (by decide) rfl rfl).1

/-- C5: whenever the fallible `TryGetCode` returns a failure marker, the
whole cache state — dictionary, custom slots and allocator — is exactly
what it was before the call: no partially-registered entries exist. -/
theorem tryGetCode_failure_no_mutation
    (s : Stub) (st : StubCacheState) (codeAllocOk dictAllocOk : Bool)
    (e : Failure)
    (h : (TryGetCode s st codeAllocOk dictAllocOk).1 = .error e) :
    (TryGetCode s st codeAllocOk dictAllocOk).2 = st := by
  unfold TryGetCode at h ⊢
  cases hfind : FindCodeInCache s st with
  | some c => simp [hfind] at h
  | none =>
      cases hca : codeAllocOk with
      | true =>
          cases hcc : s.hasCustomCache with
          | true => simp [hfind, hca, hcc] at h
          | false =>
              cases hda : dictAllocOk with
              | true => simp [hfind, hca, hcc, hda] at h
              | false => simp [hfind, hca, hcc, hda] at h
      | false => simp [hfind, hca]

theorem tryGetCode_failure_no_mutation_witness :
    (TryGetCode ⟨⟨3, 9⟩, false⟩ ⟨[], fun _ => none, 5⟩ false true).1 =
      .error .retryAfterGC ∧
    (TryGetCode ⟨⟨3, 9⟩, false⟩ ⟨[], fun _ => none, 5⟩ false true).2 =
      ⟨[], fun _ => none, 5⟩ := by
  refine ⟨rfl, ?_⟩
  exact tryGetCode_failure_no_mutation _ _ _ _ .retryAfterGC rfl

/-! ## Control-flow tracker lemmas -/

theorem exit_drop_accounting (s : NestedStatement) (d : Nat) :
    droppedSlots (s.Exit d).1 + (s.Exit d).2 = d + scopeSlots s := by
  cases s <;> simp [NestedStatement.Exit, droppedSlots, scopeSlots]

theorem exit_callFinally_count (s : NestedStatement) (d e : Nat) :
    ((s.Exit d).1.countP (fun a => decide (a = .callFinally e))) =
      (if s = .tryFinally e then 1 else 0) := by
  cases s with
  | tryFinally e' =>
      by_cases h : e' = e <;>
        simp [NestedStatement.Exit, List.countP_cons, h]
  | breakable i sl => simp [NestedStatement.Exit, List.countP_nil]
  | iteration i sl => simp [NestedStatement.Exit, List.countP_nil]
  | tryCatch => simp [NestedStatement.Exit, List.countP_cons]

theorem exit_no_rethrow (s : NestedStatement) (d : Nat) :
    ((s.Exit d).1.countP (fun a => decide (a = .rethrow))) = 0 := by
  cases s <;> simp [NestedStatement.Exit, List.countP_cons, List.countP_nil]

theorem droppedSlots_append (a b : List EmitAction) :
    droppedSlots (a ++ b) = droppedSlots a + droppedSlots b := by
  induction a with
  | nil => simp [droppedSlots]
  | cons x xs ihx => cases x <;> simp [droppedSlots, ihx] <;> omega

theorem walkToTarget_spec (isT : NestedStatement → Bool) :
    ∀ (stack : List NestedStatement) (d : Nat) (r : WalkResult),
      walkToTarget isT stack d = some r →
      r.exited = stack.takeWhile (fun s => !isT s) ∧
      stack.find? isT = some r.target ∧
      droppedSlots r.actions + r.depth = d + slotsSum r.exited := by
  intro stack
  induction stack with
  | nil => intro d r h; simp [walkToTarget] at h
  | cons s rest ih =>
      intro d r h
      by_cases hs : isT s
      · rw [walkToTarget, if_pos hs] at h
        cases h
        simp [List.takeWhile_cons, hs, List.find?_cons_of_pos _ hs,
          droppedSlots, slotsSum]
      · rw [walkToTarget, if_neg hs] at h
        cases hrec : walkToTarget isT rest (NestedStatement.Exit d s).2 with
        | none => rw [hrec] at h; cases h
        | some r' =>
            rw [hrec] at h
            cases h
            obtain ⟨he, hf, hd⟩ := ih _ _ hrec
            refine ⟨?_, ?_, ?_⟩
            · simp only [List.takeWhile_cons, hs, Bool.not_false]
              simpa using he
            · simpa [List.find?_cons_of_neg _ hs] using hf
            · show droppedSlots ((NestedStatement.Exit d s).1 ++ r'.actions) +
                  r'.depth = d + slotsSum (s :: r'.exited)
              have hacct := exit_drop_accounting s d
              rw [droppedSlots_append]
              simp only [slotsSum]
              omega

theorem walkToTarget_counts (isT : NestedStatement → Bool)
    (p : EmitAction → Bool) (q : NestedStatement → Bool)
    (hpq : ∀ s d, ((s.Exit d).1.countP p) = (if q s then 1 else 0)) :
    ∀ (stack : List NestedStatement) (d : Nat) (r : WalkResult),
      walkToTarget isT stack d = some r →
      r.actions.countP p = r.exited.countP q := by
  intro stack
  induction stack with
  | nil => intro d r h; simp [walkToTarget] at h
  | cons s rest ih =>
      intro d r h
      by_cases hs : isT s
      · rw [walkToTarget, if_pos hs] at h
        cases h
        simp [List.countP_nil]
      · rw [walkToTarget, if_neg hs] at h
        cases hrec : walkToTarget isT rest (NestedStatement.Exit d s).2 with
        | none => rw [hrec] at h; cases h
        | some r' =>
            rw [hrec] at h
            cases h
            have hrest := ih _ _ hrec
            show ((NestedStatement.Exit d s).1 ++ r'.actions).countP p =
              (s :: r'.exited).countP q
            rw [List.countP_append, List.countP_cons, hrest, hpq s d]
            omega

theorem returnWalk_spec :
    ∀ (stack : List NestedStatement) (d : Nat),
      (returnWalk stack d).exited = stack ∧
      droppedSlots (returnWalk stack d).actions + (returnWalk stack d).depth =
        d + slotsSum stack := by
  intro stack
  induction stack with
  | nil => intro d; simp [returnWalk, droppedSlots, slotsSum]
  | cons s rest ih =>
      intro d
      obtain ⟨he, hd⟩ := ih (NestedStatement.Exit d s).2
      constructor
      · show s :: (returnWalk rest (NestedStatement.Exit d s).2).exited =
          s :: rest
        rw [he]
      · show droppedSlots ((NestedStatement.Exit d s).1 ++
            (returnWalk rest (NestedStatement.Exit d s).2).actions) +
            (returnWalk rest (NestedStatement.Exit d s).2).depth =
            d + slotsSum (s :: rest)
        have hacct := exit_drop_accounting s d
        rw [droppedSlots_append]
        simp only [slotsSum]
        omega

theorem returnWalk_counts (p : EmitAction → Bool)
    (q : NestedStatement → Bool)
    (hpq : ∀ s d, ((s.Exit d).1.countP p) = (if q s then 1 else 0)) :
    ∀ (stack : List NestedStatement) (d : Nat),
      (returnWalk stack d).actions.countP p = stack.countP q := by
  intro stack
  induction stack with
  | nil => intro d; simp [returnWalk, List.countP_nil]
  | cons s rest ih =>
      intro d
      show ((NestedStatement.Exit d s).1 ++
          (returnWalk rest (NestedStatement.Exit d s).2).actions).countP p =
        (s :: rest).countP q
      rw [List.countP_append, List.countP_cons, ih, hpq s d]
      omega

/-- C2: at a break or continue site, the scopes whose `Exit` runs are
exactly the enclosing scopes strictly between the jump site and the
resolved target — the `takeWhile` prefix of the nesting stack, innermost
first, each appearing once — and at a return site every scope on the
stack is exited, in nesting order. -/
theorem exit_actions_match_nesting_depth :
    (∀ (target : Nat) (stack : List NestedStatement) (r : WalkResult),
        walkToTarget (·.isBreakTarget target) stack 0 = some r →
        r.exited = stack.takeWhile (fun s => !s.isBreakTarget target)) ∧
    (∀ (target : Nat) (stack : List NestedStatement) (r : WalkResult),
        walkToTarget (·.isContinueTarget target) stack 0 = some r →
        r.exited = stack.takeWhile (fun s => !s.isContinueTarget target)) ∧
    (∀ stack : List NestedStatement, (returnWalk stack 0).exited = stack) := by
  refine ⟨?_, ?_, ?_⟩
  · intro target stack r h
    exact (walkToTarget_spec _ stack 0 r h).1
  · intro target stack r h
    exact (walkToTarget_spec _ stack 0 r h).1
  · intro stack
    exact (returnWalk_spec stack 0).1

theorem exit_actions_match_nesting_depth_witness :
    walkToTarget (·.isBreakTarget 3)
        [NestedStatement.iteration 5 1, .tryFinally 9, .breakable 3 0] 0 =
      some ⟨[.iteration 5 1, .tryFinally 9],
            [.drop 1, .popTryHandler, .callFinally 9], 0, .breakable 3 0⟩ ∧
    (⟨[.iteration 5 1, .tryFinally 9],
      [.drop 1, .popTryHandler, .callFinally 9], 0,
      .breakable 3 0⟩ : WalkResult).exited =
      ([NestedStatement.iteration 5 1, .tryFinally 9,
        .breakable 3 0].takeWhile (fun s => !s.isBreakTarget 3)) := by
  refine ⟨by decide, ?_⟩
  exact exit_actions_match_nesting_depth.1 3
    [NestedStatement.iteration 5 1, .tryFinally 9, .breakable 3 0]
    ⟨[.iteration 5 1, .tryFinally 9],
     [.drop 1, .popTryHandler, .callFinally 9], 0, .breakable 3 0⟩
    (by decide)

/-- C7: the continue walk resolves to the first (nearest, innermost)
enclosing scope satisfying `IsContinueTarget` — necessarily an iteration
scope for the statement's label; the break walk resolves to the first
scope satisfying `IsBreakTarget` — a breakable or iteration scope for the
label; the return walk exits every enclosing scope out to the function
boundary, unconditionally, ignoring labels. -/
theorem break_continue_target_resolution :
    (∀ (target : Nat) (stack : List NestedStatement) (r : WalkResult),
        walkToTarget (·.isContinueTarget target) stack 0 = some r →
        stack.find? (·.isContinueTarget target) = some r.target ∧
        ∃ slots, r.target = .iteration target slots) ∧
    (∀ (target : Nat) (stack : List NestedStatement) (r : WalkResult),
        walkToTarget (·.isBreakTarget target) stack 0 = some r →
        stack.find? (·.isBreakTarget target) = some r.target ∧
        ((∃ slots, r.target = .breakable target slots) ∨
         (∃ slots, r.target = .iteration target slots))) ∧
    (∀ stack : List NestedStatement, (returnWalk stack 0).exited = stack) := by
  refine ⟨?_, ?_, fun stack => (returnWalk_spec stack 0).1⟩
  · intro target stack r h
    have hf := (walkToTarget_spec _ stack 0 r h).2.1
    refine ⟨hf, ?_⟩
    have hp : r.target.isContinueTarget target = true := List.find?_some hf
    cases ht : r.target with
    | iteration stmtId slots =>
        rw [ht] at hp
        simp [NestedStatement.isContinueTarget] at hp
        exact ⟨slots, by rw [hp]⟩
    | breakable stmtId slots =>
        rw [ht] at hp; simp [NestedStatement.isContinueTarget] at hp
    | tryCatch => rw [ht] at hp; simp [NestedStatement.isContinueTarget] at hp
    | tryFinally e =>
        rw [ht] at hp; simp [NestedStatement.isContinueTarget] at hp
  · intro target stack r h
    have hf := (walkToTarget_spec _ stack 0 r h).2.1
    refine ⟨hf, ?_⟩
    have hp : r.target.isBreakTarget target = true := List.find?_some hf
    cases ht : r.target with
    | iteration stmtId slots =>
        rw [ht] at hp
        simp [NestedStatement.isBreakTarget] at hp
        exact Or.inr ⟨slots, by rw [hp]⟩
    | breakable stmtId slots =>
        rw [ht] at hp
        simp [NestedStatement.isBreakTarget] at hp
        exact Or.inl ⟨slots, by rw [hp]⟩
    | tryCatch => rw [ht] at hp; simp [NestedStatement.isBreakTarget] at hp
    | tryFinally e =>
        rw [ht] at hp; simp [NestedStatement.isBreakTarget] at hp

theorem break_continue_target_resolution_witness :
    walkToTarget (·.isContinueTarget 7)
        [NestedStatement.breakable 7 2, .iteration 7 0] 0 =
      some ⟨[.breakable 7 2], [], 2, .iteration 7 0⟩ ∧
    ([NestedStatement.breakable 7 2,
      .iteration 7 0].find? (·.isContinueTarget 7) =
        some (⟨[.breakable 7 2], [], 2, .iteration 7 0⟩ : WalkResult).target) ∧
    ∃ slots, (⟨[.breakable 7 2], [], 2,
      .iteration 7 0⟩ : WalkResult).target = .iteration 7 slots := by
  refine ⟨by decide, ?_⟩
  exact break_continue_target_resolution.1 7
    [NestedStatement.breakable 7 2, .iteration 7 0]
    ⟨[.breakable 7 2], [], 2, .iteration 7 0⟩ (by decide)

/-- C3: `TryFinally::Exit` drops the accumulated operand-stack slots, pops
the try handler, and then invokes the finally block by an explicit
forward call — a `callFinally` action, never a `rethrow` — and on any
break/continue/return exit path the number of `callFinally e` actions
emitted equals the number of try/finally scopes with finally entry `e`
crossed by the walk: the finally body is called exactly once per crossing
and no exit path raises an exception. -/
theorem tryFinally_exit_explicit_call :
    (∀ d e, NestedStatement.Exit d (.tryFinally e) =
        ([.drop d, .popTryHandler, .callFinally e], 0)) ∧
    (∀ (target e : Nat) (stack : List NestedStatement) (r : WalkResult),
        walkToTarget (·.isBreakTarget target) stack 0 = some r →
        r.actions.countP (fun a => decide (a = .callFinally e)) =
          r.exited.countP (fun s => decide (s = .tryFinally e)) ∧
        r.actions.countP (fun a => decide (a = .rethrow)) = 0) ∧
    (∀ (target e : Nat) (stack : List NestedStatement) (r : WalkResult),
        walkToTarget (·.isContinueTarget target) stack 0 = some r →
        r.actions.countP (fun a => decide (a = .callFinally e)) =
          r.exited.countP (fun s => decide (s = .tryFinally e)) ∧
        r.actions.countP (fun a => decide (a = .rethrow)) = 0) ∧
    (∀ (e : Nat) (stack : List NestedStatement),
        (returnWalk stack 0).actions.countP
            (fun a => decide (a = .callFinally e)) =
          stack.countP (fun s => decide (s = .tryFinally e)) ∧
        (returnWalk stack 0).actions.countP
            (fun a => decide (a = .rethrow)) = 0) := by
  have hcf : ∀ (e : Nat) (s : NestedStatement) (d : Nat),
      ((s.Exit d).1.countP (fun a => decide (a = .callFinally e))) =
        (if (fun s => decide (s = NestedStatement.tryFinally e)) s
          then 1 else 0) := by
    intro e s d
    rw [exit_callFinally_count]
    by_cases h : s = .tryFinally e <;> simp [h]
  have hrt : ∀ (s : NestedStatement) (d : Nat),
      ((s.Exit d).1.countP (fun a => decide (a = .rethrow))) =
        (if (fun _ : NestedStatement => false) s then 1 else 0) := by
    intro s d
    rw [exit_no_rethrow]
    simp
  refine ⟨?_, ?_, ?_, ?_⟩
  · intro d e; rfl
  · intro target e stack r h
    exact ⟨walkToTarget_counts _ _ _ (hcf e) stack 0 r h,
      by rw [walkToTarget_counts _ _ _ hrt stack 0 r h]; simp⟩
  · intro target e stack r h
    exact ⟨walkToTarget_counts _ _ _ (hcf e) stack 0 r h,
      by rw [walkToTarget_counts _ _ _ hrt stack 0 r h]; simp⟩
  · intro e stack
    exact ⟨returnWalk_counts _ _ (hcf e) stack 0,
      by rw [returnWalk_counts _ _ hrt stack 0]; simp⟩

theorem tryFinally_exit_explicit_call_witness :
    walkToTarget (·.isBreakTarget 4)
        [NestedStatement.tryFinally 11, .tryCatch, .breakable 4 0] 0 =
      some ⟨[.tryFinally 11, .tryCatch],
            [.drop 0, .popTryHandler, .callFinally 11, .drop 0,
             .popTryHandler], 0, .breakable 4 0⟩ ∧
    ((⟨[.tryFinally 11, .tryCatch],
       [.drop 0, .popTryHandler, .callFinally 11, .drop 0,
        .popTryHandler], 0, .breakable 4 0⟩ : WalkResult).actions.countP
        (fun a => decide (a = .callFinally 11)) =
      (⟨[.tryFinally 11, .tryCatch],
        [.drop 0, .popTryHandler, .callFinally 11, .drop 0,
         .popTryHandler], 0, .breakable 4 0⟩ : WalkResult).exited.countP
        (fun s => decide (s = .tryFinally 11)) ∧
     (⟨[.tryFinally 11, .tryCatch],
       [.drop 0, .popTryHandler, .callFinally 11, .drop 0,
        .popTryHandler], 0, .breakable 4 0⟩ : WalkResult).actions.countP
        (fun a => decide (a = .rethrow)) = 0) := by
  refine ⟨by decide, ?_⟩
  exact tryFinally_exit_explicit_call.2.1 4 11
    [NestedStatement.tryFinally 11, .tryCatch, .breakable 4 0]
    ⟨[.tryFinally 11, .tryCatch],
     [.drop 0, .popTryHandler, .callFinally 11, .drop 0,
      .popTryHandler], 0, .breakable 4 0⟩ (by decide)

/-- C10: the `Exit` of a try/catch or try/finally scope itself drops the
operand-stack slots accumulated by the scopes inside it, pops the try
handler, and returns an accumulated depth of `0`, so slot accumulation
restarts from zero past each try boundary; consequently over a whole
break or return walk the total number of slots dropped equals the sum of
the slots of the exited scopes — each slot is dropped exactly once. -/
theorem try_exit_resets_stack_depth :
    (∀ d, NestedStatement.Exit d .tryCatch =
        ([.drop d, .popTryHandler], 0)) ∧
    (∀ d e, NestedStatement.Exit d (.tryFinally e) =
        ([.drop d, .popTryHandler, .callFinally e], 0)) ∧
    (∀ (target : Nat) (stack : List NestedStatement) (r : WalkResult),
        walkToTarget (·.isBreakTarget target) stack 0 = some r →
        droppedSlots (r.actions ++ [.drop r.depth]) = slotsSum r.exited) ∧
    (∀ stack : List NestedStatement,
        droppedSlots (VisitReturnStatement stack) = slotsSum stack) := by
  refine ⟨fun d => rfl, fun d e => rfl, ?_, ?_⟩
  · intro target stack r h
    have hd := (walkToTarget_spec _ stack 0 r h).2.2
    rw [droppedSlots_append]
    simp only [droppedSlots]
    omega
  · intro stack
    obtain ⟨he, hd⟩ := returnWalk_spec stack 0
    rw [VisitReturnStatement]
    rw [droppedSlots_append]
    simp only [droppedSlots]
    omega

/-! ## Bailout gate lemmas -/

theorem check_step (s₁ s₂ : CheckerState) (X : Bool)
    (h : s₂.hasSupportedSyntax = (s₁.hasSupportedSyntax && X)) :
    (if !s₁.hasSupportedSyntax then s₁ else s₂).hasSupportedSyntax =
      (s₁.hasSupportedSyntax && X) := by
  cases hA : s₁.hasSupportedSyntax <;> simp [hA, h]

theorem check_step2 (s₁ s₂ s₃ : CheckerState) (X Y : Bool)
    (h₂ : s₂.hasSupportedSyntax = (s₁.hasSupportedSyntax && X))
    (h₃ : s₃.hasSupportedSyntax = (s₂.hasSupportedSyntax && Y)) :
    (if !s₁.hasSupportedSyntax then s₁ else
      if !s₂.hasSupportedSyntax then s₂ else s₃).hasSupportedSyntax =
      (s₁.hasSupportedSyntax && (X && Y)) := by
  cases hA : s₁.hasSupportedSyntax <;>
    cases hB : s₂.hasSupportedSyntax <;> simp_all

mutual

theorem syntaxVisit_flag : ∀ (e : Ast) (st : CheckerState),
    (SyntaxVisit e st).hasSupportedSyntax =
      (st.hasSupportedSyntax && !gateRejects e) := by
  intro e st
  cases e with
  | block stmts =>
      simp only [SyntaxVisit]
      rw [syntaxVisitStatements_flag stmts _]
      simp [gateRejects]
  | expressionStatement e1 =>
      simp only [SyntaxVisit]
      rw [syntaxVisit_flag e1 _]
      simp [gateRejects]
  | emptyStatement => simp [SyntaxVisit, gateRejects]
  | ifStatement cond thenPart elsePart =>
      simp only [SyntaxVisit]
      rw [check_step2 _ _ _ _ _ (syntaxVisit_flag thenPart _)
        (syntaxVisit_flag elsePart _), syntaxVisit_flag cond _]
      simp [gateRejects, Bool.not_or, Bool.and_assoc]
  | continueStatement => simp [SyntaxVisit, gateRejects]
  | breakStatement => simp [SyntaxVisit, gateRejects]
  | returnStatement e1 =>
      simp only [SyntaxVisit]
      rw [syntaxVisit_flag e1 _]
      simp [gateRejects]
  | withEnterStatement e1 =>
      simp only [SyntaxVisit]
      rw [syntaxVisit_flag e1 _]
      simp [gateRejects]
  | withExitStatement => simp [SyntaxVisit, gateRejects]
  | switchStatement => simp [SyntaxVisit, gateRejects, bailout]
  | doWhileStatement cond body =>
      simp only [SyntaxVisit]
      rw [check_step _ _ _ (syntaxVisit_flag body _),
        syntaxVisit_flag cond _]
      simp [gateRejects, Bool.not_or, Bool.and_assoc]
  | whileStatement cond body =>
      simp only [SyntaxVisit]
      rw [check_step _ _ _ (syntaxVisit_flag body _),
        syntaxVisit_flag cond _]
      simp [gateRejects, Bool.not_or, Bool.and_assoc]
  | forInStatement => simp [SyntaxVisit, gateRejects, bailout]
  | tryCatchStatement tryBlock catchBlock =>
      simp only [SyntaxVisit]
      rw [check_step _ _ _ (syntaxVisit_flag catchBlock _),
        syntaxVisit_flag tryBlock _]
      simp [gateRejects, Bool.not_or, Bool.and_assoc]
  | tryFinallyStatement tryBlock finallyBlock =>
      simp only [SyntaxVisit]
      rw [check_step _ _ _ (syntaxVisit_flag finallyBlock _),
        syntaxVisit_flag tryBlock _]
      simp [gateRejects, Bool.not_or, Bool.and_assoc]
  | debuggerStatement => simp [SyntaxVisit, gateRejects]
  | declaration proxy fn =>
      cases proxy with
      | plainProxy =>
          cases fn with
          | noFun => simp [SyntaxVisit, gateRejects]
          | funLit f =>
              simp only [SyntaxVisit]
              rw [syntaxVisit_flag f _]
              simp [gateRejects]
      | propertyProxy obj key =>
          cases fn with
          | noFun =>
              simp only [SyntaxVisit]
              rw [syntaxVisit_flag key _, syntaxVisit_flag obj _]
              simp [gateRejects, Bool.not_or, Bool.and_assoc]
          | funLit f =>
              simp only [SyntaxVisit]
              rw [syntaxVisit_flag f _, syntaxVisit_flag key _,
                syntaxVisit_flag obj _]
              simp [gateRejects, Bool.not_or, Bool.and_assoc]
  | functionLiteral => simp [SyntaxVisit, gateRejects]
  | functionBoilerplateLiteral => simp [SyntaxVisit, gateRejects, bailout]
  | conditional cond thenExpr elseExpr =>
      simp only [SyntaxVisit]
      rw [check_step2 _ _ _ _ _ (syntaxVisit_flag thenExpr _)
        (syntaxVisit_flag elseExpr _), syntaxVisit_flag cond _]
      simp [gateRejects, Bool.not_or, Bool.and_assoc]
  | literal => simp [SyntaxVisit, gateRejects]
  | variableProxy isGlobal slot =>
      cases isGlobal with
      | true => simp [SyntaxVisit, gateRejects]
      | false =>
          cases slot with
          | noSlot => simp [SyntaxVisit, gateRejects]
          | slotOf t => cases t <;> simp [SyntaxVisit, gateRejects, bailout]
  | assignment initConst target value =>
      cases initConst with
      | true =>
          unfold SyntaxVisit gateRejects
          simp [bailout]
      | false =>
          cases target with
          | variableTarget constMode isGlobal slotType =>
              cases constMode with
              | true => simp [SyntaxVisit, gateRejects, bailout]
              | false =>
                  cases isGlobal <;> cases slotType <;>
                    simp [SyntaxVisit, gateRejects, bailout,
                      syntaxVisit_flag value]
          | propertyTarget obj key =>
              simp only [SyntaxVisit]
              rw [if_neg Bool.false_ne_true]
              rw [check_step2 _ _ _ _ _ (syntaxVisit_flag key _)
                (syntaxVisit_flag value _), syntaxVisit_flag obj _]
              simp [gateRejects, Bool.not_or, Bool.and_assoc]
          | invalidTarget => simp [SyntaxVisit, gateRejects, bailout]
  | throwExpr exception =>
      simp only [SyntaxVisit]
      rw [syntaxVisit_flag exception _]
      simp [gateRejects]
  | property obj key =>
      simp only [SyntaxVisit]
      rw [check_step _ _ _ (syntaxVisit_flag key _), syntaxVisit_flag obj _]
      simp [gateRejects, Bool.not_or, Bool.and_assoc]
  | call callee args =>
      cases callee with
      | globalVar =>
          simp only [SyntaxVisit]
          rw [syntaxVisitStatements_flag args _]
          simp [gateRejects]
      | evalVar => simp [SyntaxVisit, gateRejects, bailout]
      | lookupVar => simp [SyntaxVisit, gateRejects, bailout]
      | propertyCallee obj key =>
          simp only [SyntaxVisit]
          rw [check_step2 _ _ _ _ _ (syntaxVisit_flag key _)
            (syntaxVisitStatements_flag args _), syntaxVisit_flag obj _]
          simp [gateRejects, Bool.not_or, Bool.and_assoc]
      | exprCallee f =>
          simp only [SyntaxVisit]
          rw [syntaxVisitStatements_flag args _, syntaxVisit_flag f _]
          simp [gateRejects, Bool.not_or, Bool.and_assoc]
  | callNew fn args =>
      simp only [SyntaxVisit]
      rw [check_step _ _ _ (syntaxVisitStatements_flag args _),
        syntaxVisit_flag fn _]
      simp [gateRejects, Bool.not_or, Bool.and_assoc]
  | callRuntime isInline args =>
      cases isInline with
      | true => simp [SyntaxVisit, gateRejects, bailout]
      | false =>
          simp only [SyntaxVisit]
          rw [if_neg Bool.false_ne_true]
          rw [syntaxVisitStatements_flag args _]
          simp [gateRejects]
  | unaryOperation op sub =>
      cases op <;>
        (simp only [SyntaxVisit];
         first
           | (rw [syntaxVisit_flag sub _]
              simp [gateRejects])
           | simp [gateRejects, bailout])
  | binaryOperation left right =>
      simp only [SyntaxVisit]
      rw [check_step _ _ _ (syntaxVisit_flag right _),
        syntaxVisit_flag left _]
      simp [gateRejects, Bool.not_or, Bool.and_assoc]
  | compareOperation left right =>
      simp only [SyntaxVisit]
      rw [check_step _ _ _ (syntaxVisit_flag right _),
        syntaxVisit_flag left _]
      simp [gateRejects, Bool.not_or, Bool.and_assoc]
  | thisFunction => simp [SyntaxVisit, gateRejects]

theorem syntaxVisitStatements_flag : ∀ (l : AstList) (st : CheckerState),
    (SyntaxVisitStatements l st).hasSupportedSyntax =
      (st.hasSupportedSyntax && !anyRejects l) := by
  intro l st
  cases l with
  | nil => simp [SyntaxVisitStatements, anyRejects]
  | cons head tail =>
      simp only [SyntaxVisitStatements]
      rw [check_step _ _ _ (syntaxVisitStatements_flag tail _),
        syntaxVisit_flag head _]
      simp [anyRejects, Bool.not_or, Bool.and_assoc]

end

/-- C6 counterexample: the checker does not stop at the first rejecting
node.  For a call whose (non-variable, non-property) callee contains the
rejected `~` operator, the first argument is still visited after the
rejection — `VisitCall` has no `CHECK_BAILOUT` between visiting the
callee and the argument loop (full-codegen.cc 381–390): the nodes visited
from the first rejecting node on are the rejecting unary operation *and*
the call's literal argument. -/
theorem gate_counterexample_traversal_after_reject :
    (SyntaxVisit
        (.call (.exprCallee (.unaryOperation .bitNot .literal))
          (.cons .literal .nil)) initialChecker).hasSupportedSyntax
      = false ∧
    ((SyntaxVisit
        (.call (.exprCallee (.unaryOperation .bitNot .literal))
          (.cons .literal .nil)) initialChecker).visitLog.dropWhile
        (fun n => !rejectsHere n)) =
      [.unaryOperation .bitNot .literal, .literal] := by
  exact ⟨rfl, rfl⟩

/-- C6 (amended): the rejection flag, once cleared at a rejecting node,
propagates outward through every ancestor, and the gate accepts if and
only if no rejecting construct is reachable without passing through an
already-rejecting ancestor; traversal stops at the next `CHECK_BAILOUT`
rather than immediately at the rejecting node. -/
theorem gate_acceptance_iff_no_rejection :
    (∀ e : Ast, (SyntaxVisit e initialChecker).hasSupportedSyntax =
        !gateRejects e) ∧
    (∀ (e : Ast) (st : CheckerState), st.hasSupportedSyntax = false →
        (SyntaxVisit e st).hasSupportedSyntax = false) ∧
    (∀ (hasContextParams : Bool) (decls body : AstList),
        (SyntaxCheck hasContextParams decls body
            initialChecker).hasSupportedSyntax =
          !(hasContextParams || anyRejects decls || anyRejects body)) := by
  refine ⟨?_, ?_, ?_⟩
  · intro e
    rw [syntaxVisit_flag e initialChecker]
    simp [initialChecker]
  · intro e st h
    rw [syntaxVisit_flag e st, h]
    simp
  · intro hasContextParams decls body
    cases hasContextParams with
    | true => unfold SyntaxCheck; simp [bailout]
    | false =>
        unfold SyntaxCheck
        rw [if_neg Bool.false_ne_true]
        rw [check_step _ _ _ (syntaxVisitStatements_flag body _),
          syntaxVisitStatements_flag decls _]
        simp [initialChecker, Bool.not_or, Bool.and_assoc]

theorem gate_acceptance_iff_no_rejection_witness :
    ((⟨false, [Ast.switchStatement]⟩ : CheckerState).hasSupportedSyntax
      = false) ∧
    (SyntaxVisit .emptyStatement
        ⟨false, [Ast.switchStatement]⟩).hasSupportedSyntax = false := by
  refine ⟨rfl, ?_⟩
  exact gate_acceptance_iff_no_rejection.2.1 .emptyStatement
    ⟨false, [Ast.switchStatement]⟩ rfl

/-! ## While-loop emission lemmas -/

theorem wrun_succ (prog : List WInstr) (fuel pc : Nat) (t c : Nat → Bool)
    (log : List WEvent) :
    wrun prog (fuel + 1) pc t c log =
      (match prog[pc]? with
       | none => some log
       | some (.jmp l) => wrun prog fuel (labelPos prog l) t c log
       | some (.bindLabel _) => wrun prog fuel (pc + 1) t c log
       | some .execBody =>
           wrun prog fuel (pc + 1) t c (log ++ [.body])
       | some (.stackLimitCheck l) =>
           if t 0 then
             wrun prog fuel (labelPos prog l) (shiftOracle t) c
               (log ++ [.check])
           else
             wrun prog fuel (pc + 1) (shiftOracle t) c (log ++ [.check])
       | some (.testCond tl fl) =>
           if c 0 then
             wrun prog fuel (labelPos prog tl) t (shiftOracle c)
               (log ++ [.test])
           else
             wrun prog fuel (labelPos prog fl) t (shiftOracle c)
               (log ++ [.test])
       | some .callStackStub =>
           wrun prog fuel (pc + 1) t c (log ++ [.handler])) := by
  cases hi : prog[pc]? with
  | none => simp [wrun, hi]
  | some i => cases i <;> simp [wrun, hi]

theorem wrun_extend (prog : List WInstr) :
    ∀ (fuel k pc : Nat) (t c : Nat → Bool) (log r : List WEvent),
      wrun prog fuel pc t c log = some r →
      wrun prog (fuel + k) pc t c log = some r := by
  intro fuel
  induction fuel with
  | zero => intro k pc t c log r h; simp [wrun] at h
  | succ f ih =>
      intro k pc t c log r h
      rw [show f + 1 + k = f + k + 1 from by omega]
      rw [wrun_succ] at h ⊢
      cases hi : prog[pc]? with
      | none => rw [hi] at h; exact h
      | some i =>
          rw [hi] at h
          cases i with
          | jmp l => exact ih k _ t c log r h
          | bindLabel l => exact ih k _ t c log r h
          | execBody => exact ih k _ t c _ r h
          | stackLimitCheck l =>
              cases htr : t 0 <;> simp only [htr] at h ⊢ <;>
                simp only [Bool.false_eq_true, if_false, if_true] at h ⊢ <;>
                exact ih k _ _ c _ r h
          | testCond tl fl =>
              cases hcc : c 0 <;> simp only [hcc] at h ⊢ <;>
                simp only [Bool.false_eq_true, if_false, if_true] at h ⊢ <;>
                exact ih k _ t _ _ r h
          | callStackStub => exact ih k _ t c _ r h

theorem wrun_cycle (t c : Nat → Bool) (log : List WEvent)
    (hc : c 0 = true) (r : List WEvent) (fuel : Nat)
    (h : wrun whileCode fuel 3 (shiftOracle t) (shiftOracle c)
      (log ++ cycleEvents (t 0) ++ [.body]) = some r) :
    ∃ fuel', wrun whileCode fuel' 3 t c log = some r := by
  have g1 : whileCode[1]? = some (WInstr.bindLabel 0) := rfl
  have g2 : whileCode[2]? = some WInstr.execBody := rfl
  have g3 : whileCode[3]? = some (WInstr.bindLabel 1) := rfl
  have g4 : whileCode[4]? = some (WInstr.stackLimitCheck 2) := rfl
  have g5 : whileCode[5]? = some (WInstr.bindLabel 3) := rfl
  have g6 : whileCode[6]? = some (WInstr.testCond 0 4) := rfl
  have g7 : whileCode[7]? = some (WInstr.bindLabel 2) := rfl
  have g8 : whileCode[8]? = some WInstr.callStackStub := rfl
  have g9 : whileCode[9]? = some (WInstr.jmp 3) := rfl
  have l0 : labelPos whileCode 0 = 1 := rfl
  have l2 : labelPos whileCode 2 = 7 := rfl
  have l3 : labelPos whileCode 3 = 5 := rfl
  cases ht : t 0 with
  | true =>
      refine ⟨fuel + 1 + 1 + 1 + 1 + 1 + 1 + 1 + 1 + 1, ?_⟩
      simp only [cycleEvents, ht] at h
      simp [wrun_succ, g1, g2, g3, g4, g5, g6, g7, g8, g9, l0, l2, l3,
        ht, hc]
      simpa using h
  | false =>
      refine ⟨fuel + 1 + 1 + 1 + 1 + 1 + 1, ?_⟩
      simp only [cycleEvents, ht] at h
      simp [wrun_succ, g1, g2, g3, g4, g5, g6, l0, ht, hc]
      simpa using h

theorem wrun_exit (t c : Nat → Bool) (log : List WEvent)
    (hc : c 0 = false) :
    ∃ fuel, wrun whileCode fuel 3 t c log =
      some (log ++ cycleEvents (t 0)) := by
  have g3 : whileCode[3]? = some (WInstr.bindLabel 1) := rfl
  have g4 : whileCode[4]? = some (WInstr.stackLimitCheck 2) := rfl
  have g5 : whileCode[5]? = some (WInstr.bindLabel 3) := rfl
  have g6 : whileCode[6]? = some (WInstr.testCond 0 4) := rfl
  have g7 : whileCode[7]? = some (WInstr.bindLabel 2) := rfl
  have g8 : whileCode[8]? = some WInstr.callStackStub := rfl
  have g9 : whileCode[9]? = some (WInstr.jmp 3) := rfl
  have g10 : whileCode[10]? = some (WInstr.bindLabel 4) := rfl
  have g11 : whileCode[11]? = none := rfl
  have l3 : labelPos whileCode 3 = 5 := rfl
  have l2 : labelPos whileCode 2 = 7 := rfl
  have l4 : labelPos whileCode 4 = 10 := rfl
  cases ht : t 0 with
  | true =>
      refine ⟨9, ?_⟩
      simp [wrun_succ, g3, g4, g5, g6, g7, g8, g9, g10, g11, l2, l3, l4,
        ht, hc, cycleEvents]
  | false =>
      refine ⟨6, ?_⟩
      simp [wrun_succ, g3, g4, g5, g6, g10, g11, l4, ht, hc, cycleEvents]

theorem whileRun_trace :
    ∀ (iters : Nat) (t c : Nat → Bool) (log : List WEvent),
      (∀ m, m < iters → c m = true) → c iters = false →
      ∃ fuel, wrun whileCode fuel 3 t c log =
        some (log ++ whileTrace iters t c) := by
  intro iters
  induction iters with
  | zero =>
      intro t c log _ hc
      exact wrun_exit t c log hc
  | succ k ih =>
      intro t c log hlt hc
      have hc0 : c 0 = true := hlt 0 (Nat.succ_pos k)
      obtain ⟨fuel, hrec⟩ := ih (shiftOracle t) (shiftOracle c)
        (log ++ cycleEvents (t 0) ++ [.body])
        (fun m hm => hlt (m + 1) (by omega)) hc
      have heq : (log ++ cycleEvents (t 0) ++ [WEvent.body]) ++
          whileTrace k (shiftOracle t) (shiftOracle c) =
          log ++ whileTrace (k + 1) t c := by
        simp [whileTrace, List.append_assoc]
      exact wrun_cycle t c log hc0 _ fuel (heq ▸ hrec)

theorem whileTrace_counts (iters : Nat) : ∀ (t c : Nat → Bool),
    ((whileTrace iters t c).countP
        (fun e => decide (e = .body)) = iters) ∧
    ((whileTrace iters t c).countP
        (fun e => decide (e = .test)) = iters + 1) ∧
    ((whileTrace iters t c).countP
        (fun e => decide (e = .check)) = iters + 1) ∧
    ((whileTrace iters t c).countP
        (fun e => decide (e = .handler)) = countTrips iters t) := by
  induction iters with
  | zero =>
      intro t c
      cases ht : t 0 <;>
        simp [whileTrace, cycleEvents, countTrips, ht, List.countP_cons,
          List.countP_append]
  | succ k ih =>
      intro t c
      obtain ⟨h1, h2, h3, h4⟩ := ih (shiftOracle t) (shiftOracle c)
      cases ht : t 0 <;>
        simp [whileTrace, cycleEvents, countTrips, ht, List.countP_cons,
          List.countP_append, h1, h2, h3, h4] <;>
        omega

/-- C8: the gate accepts a while statement exactly when its condition and
body are accepted; the emitted loop code, started at its entry, produces
for `iters` body executions exactly the reference trace in which every
body execution is followed by a stack-limit check and then a re-test of
the condition, the stack check precedes every test, a tripped check runs
the external overflow-handler stub and then resumes at the test (the run
still halts normally), and the counts match: `iters` bodies,
`iters + 1` checks and tests, and one handler call per tripped check. -/
theorem while_loop_emission :
    (∀ (iters : Nat) (t c : Nat → Bool),
        (∀ m, m < iters → c m = true) → c iters = false →
        ∃ fuel, wrun whileCode fuel 0 t c [] =
          some (whileTrace iters t c)) ∧
    (∀ (iters : Nat) (t c : Nat → Bool),
        (whileTrace iters t c).countP
            (fun e => decide (e = .body)) = iters ∧
        (whileTrace iters t c).countP
            (fun e => decide (e = .test)) = iters + 1 ∧
        (whileTrace iters t c).countP
            (fun e => decide (e = .check)) = iters + 1 ∧
        (whileTrace iters t c).countP
            (fun e => decide (e = .handler)) = countTrips iters t) ∧
    (∀ cond body : Ast, gateRejects (.whileStatement cond body) =
        (gateRejects cond || gateRejects body)) := by
  refine ⟨?_, fun iters t c => whileTrace_counts iters t c,
    fun cond body => by simp [gateRejects]⟩
  intro iters t c hlt hc
  obtain ⟨fuel, h⟩ := whileRun_trace iters t c [] hlt hc
  refine ⟨fuel + 1, ?_⟩
  have g0 : whileCode[0]? = some (WInstr.jmp 1) := rfl
  have l1 : labelPos whileCode 1 = 3 := rfl
  rw [wrun_succ, g0]
  simp only [l1]
  simpa using h

theorem while_loop_emission_witness :
    (∀ m, m < 1 → (fun m : Nat => m == 0) m = true) ∧
    ((fun m : Nat => m == 0) 1 = false) ∧
    (∃ fuel, wrun whileCode fuel 0 (fun _ => true) (fun m : Nat => m == 0)
      [] = some (whileTrace 1 (fun _ => true) (fun m : Nat => m == 0))) ∧
    whileTrace 1 (fun _ => true) (fun m : Nat => m == 0) =
      [.check, .handler, .test, .body, .check, .handler, .test] := by
  refine ⟨?_, rfl, ?_, rfl⟩
  · intro m hm
    have hm0 : m = 0 := by omega
    subst hm0
    rfl
  · exact while_loop_emission.1 1 (fun _ => true) (fun m : Nat => m == 0)
      (fun m hm => by
        have hm0 : m = 0 := by omega
        subst hm0
        rfl) rfl

/-- C9: if the code generator's AST recursion recorded a compile-time
stack overflow, `MakeCode` returns the null code handle and leaves the
isolate untouched — in particular no pending exception is introduced —
instead of crashing the compiling process. -/
theorem makeCode_overflow_returns_null (gen : CodegenOutcome)
    (top : TopState) (h : gen.hasStackOverflow = true) :
    MakeCode gen top = (none, top) ∧
    (MakeCode gen top).2.pendingException = top.pendingException := by
  unfold MakeCode
  rw [h]
  exact ⟨rfl, rfl⟩

theorem makeCode_overflow_returns_null_witness :
    (⟨true, 7⟩ : CodegenOutcome).hasStackOverflow = true ∧
    MakeCode ⟨true, 7⟩ ⟨false⟩ = (none, ⟨false⟩) ∧
    (MakeCode ⟨true, 7⟩ ⟨false⟩).2.pendingException = false := by
  refine ⟨rfl, ?_⟩
  exact (makeCode_overflow_returns_null ⟨true, 7⟩ ⟨false⟩ rfl).imp id
    (fun h => h)

/-! ## Short-circuit logical operation lemmas -/

theorem findLabel_append (l : Nat) (c k : List CInstr) :
    findLabel l (c ++ k) =
      (match findLabel l c with
       | some s => some (s ++ k)
       | none => findLabel l k) := by
  induction c with
  | nil => simp [findLabel]
  | cons i rest ih =>
      cases i with
      | bind l' =>
          by_cases h : l' = l
          · simp [findLabel, h]
          · simp only [List.cons_append, findLabel, if_neg h]
            exact ih
      | atomEval e v => simp only [List.cons_append, findLabel]; exact ih
      | branch t f => simp only [List.cons_append, findLabel]; exact ih

theorem findLabel_eq_none {l : Nat} :
    ∀ {c : List CInstr}, (∀ l', CInstr.bind l' ∈ c → l' ≠ l) →
      findLabel l c = none := by
  intro c
  induction c with
  | nil => intro _; rfl
  | cons i rest ih =>
      intro h
      cases i with
      | bind l' =>
          have hne : l' ≠ l := h l' (List.mem_cons_self _ _)
          simp only [findLabel, if_neg hne]
          exact ih (fun l'' hm => h l'' (List.mem_cons_of_mem _ hm))
      | atomEval e v =>
          simp only [findLabel]
          exact ih (fun l'' hm => h l'' (List.mem_cons_of_mem _ hm))
      | branch t f =>
          simp only [findLabel]
          exact ih (fun l'' hm => h l'' (List.mem_cons_of_mem _ hm))

theorem exec_append :
    ∀ (c : List CInstr) (k : List CInstr) (loc : Nat) (log : List Nat),
      exec (c ++ k) loc log =
        (match exec c loc log with
         | .halt v g => exec k v g
         | .escape lab v g =>
             (match findLabel lab k with
              | some k' => exec k' v g
              | none => .escape lab v g)) := by
  have H : ∀ (m : Nat) (c : List CInstr), c.length ≤ m →
      ∀ (k : List CInstr) (loc : Nat) (log : List Nat),
        exec (c ++ k) loc log =
          (match exec c loc log with
           | .halt v g => exec k v g
           | .escape lab v g =>
               (match findLabel lab k with
                | some k' => exec k' v g
                | none => .escape lab v g)) := by
    intro m
    induction m with
    | zero =>
        intro c hc k loc log
        have : c = [] := List.length_eq_zero.mp (Nat.le_zero.mp hc)
        subst this
        simp [exec]
    | succ m ih =>
        intro c hc k loc log
        cases c with
        | nil => simp [exec]
        | cons i rest =>
            have hrest : rest.length ≤ m := by
              simpa using Nat.succ_le_succ_iff.mp hc
            cases i with
            | atomEval e v =>
                simp only [List.cons_append, exec]
                exact ih rest hrest k v (log ++ [e])
            | bind l =>
                simp only [List.cons_append, exec]
                exact ih rest hrest k loc log
            | branch t f =>
                simp only [List.cons_append, exec]
                rw [findLabel_append]
                cases hfl : findLabel (if loc ≠ 0 then t else f) rest with
                | some r' =>
                    simp only []
                    have hr' : r'.length ≤ m :=
                      Nat.le_trans (Nat.le_of_lt (findLabel_length hfl))
                        hrest
                    exact ih r' hr' k loc log
                | none =>
                    cases hke : findLabel (if loc ≠ 0 then t else f) k with
                    | some k' =>
                        simp only [ne_eq, ite_not] at hke
                        simp [hke]
                    | none =>
                        simp only [ne_eq, ite_not] at hke
                        simp [hke]
  intro c k loc log
  exact H c.length c (Nat.le_refl _) k loc log

theorem exec_tail_halt {cb : List CInstr} {v w : Nat} {g g' : List Nat}
    (k : List CInstr) (h : exec cb v g = .halt w g') :
    exec (cb ++ k) v g = exec k w g' := by
  rw [exec_append, h]

theorem exec_tail_escape {cb : List CInstr} {lab v w : Nat}
    {g g' : List Nat} (k : List CInstr)
    (h : exec cb v g = .escape lab w g')
    (hk : findLabel lab k = none) :
    exec (cb ++ k) v g = .escape lab w g' := by
  rw [exec_append, h]
  dsimp only
  rw [hk]

theorem compile_le (e : LExpr) :
    ∀ (ctx : ExprContext) (n : Nat), n ≤ (compileExpr e ctx n).2 := by
  induction e with
  | atom eff v => intro ctx n; cases ctx <;> simp [compileExpr]
  | andE a b iha ihb =>
      intro ctx n
      cases ctx <;>
        (simp only [compileExpr]
         exact le_trans (by omega) (le_trans (iha _ (n + 2)) (ihb _ _)))
  | orE a b iha ihb =>
      intro ctx n
      cases ctx <;>
        (simp only [compileExpr]
         exact le_trans (by omega) (le_trans (iha _ (n + 2)) (ihb _ _)))

theorem binds_skeleton {a b : LExpr} {lctx rctx : ExprContext} {n l : Nat}
    (iha : ∀ (ctx : ExprContext) (n l : Nat),
      CInstr.bind l ∈ (compileExpr a ctx n).1 →
      n ≤ l ∧ l < (compileExpr a ctx n).2)
    (ihb : ∀ (ctx : ExprContext) (n l : Nat),
      CInstr.bind l ∈ (compileExpr b ctx n).1 →
      n ≤ l ∧ l < (compileExpr b ctx n).2)
    (h : CInstr.bind l ∈
      (compileExpr a lctx (n + 2)).1 ++ [CInstr.bind n] ++
        (compileExpr b rctx (compileExpr a lctx (n + 2)).2).1 ++
        [CInstr.bind (n + 1)]) :
    n ≤ l ∧
      l < (compileExpr b rctx (compileExpr a lctx (n + 2)).2).2 := by
  have hA := compile_le a lctx (n + 2)
  have hB := compile_le b rctx (compileExpr a lctx (n + 2)).2
  simp only [List.mem_append, List.mem_singleton, CInstr.bind.injEq] at h
  rcases h with ((hm | hm) | hm) | hm
  · have := iha _ _ _ hm
    omega
  · omega
  · have := ihb _ _ _ hm
    omega
  · omega

theorem compile_binds (e : LExpr) :
    ∀ (ctx : ExprContext) (n l : Nat),
      CInstr.bind l ∈ (compileExpr e ctx n).1 →
      n ≤ l ∧ l < (compileExpr e ctx n).2 := by
  induction e with
  | atom eff v =>
      intro ctx n l h
      cases ctx <;> simp [compileExpr] at h
  | andE a b iha ihb =>
      intro ctx n l h
      cases ctx <;>
        (simp only [compileExpr] at h ⊢
         exact binds_skeleton iha ihb h)
  | orE a b iha ihb =>
      intro ctx n l h
      cases ctx <;>
        (simp only [compileExpr] at h ⊢
         exact binds_skeleton iha ihb h)

theorem exec_skel_er {ca cb : List CInstr} {n v loc : Nat}
    {g log : List Nat}
    (hL : exec ca loc log = .escape n v g) :
    exec (ca ++ [CInstr.bind n] ++ cb ++ [CInstr.bind (n + 1)]) loc log =
      exec (cb ++ [CInstr.bind (n + 1)]) v g := by
  rw [show ca ++ [CInstr.bind n] ++ cb ++ [CInstr.bind (n + 1)] =
      ca ++ ([CInstr.bind n] ++ (cb ++ [CInstr.bind (n + 1)])) by simp]
  rw [exec_append, hL]
  dsimp only
  rw [show findLabel n ([CInstr.bind n] ++ (cb ++ [CInstr.bind (n + 1)])) =
      some (cb ++ [CInstr.bind (n + 1)]) from by simp [findLabel]]

theorem exec_skel_dn {ca cb : List CInstr} {n v loc : Nat}
    {g log : List Nat}
    (hL : exec ca loc log = .escape (n + 1) v g)
    (hcb : ∀ l', CInstr.bind l' ∈ cb → l' ≠ n + 1) :
    exec (ca ++ [CInstr.bind n] ++ cb ++ [CInstr.bind (n + 1)]) loc log =
      .halt v g := by
  rw [show ca ++ [CInstr.bind n] ++ cb ++ [CInstr.bind (n + 1)] =
      ca ++ ([CInstr.bind n] ++ (cb ++ [CInstr.bind (n + 1)])) by simp]
  rw [exec_append, hL]
  dsimp only
  have hfl : findLabel (n + 1)
      ([CInstr.bind n] ++ (cb ++ [CInstr.bind (n + 1)])) = some [] := by
    have hn : n ≠ n + 1 := by omega
    simp only [List.singleton_append, findLabel, if_neg hn, List.append_eq,
      List.nil_append]
    rw [findLabel_append, findLabel_eq_none hcb]
    simp [findLabel]
  rw [hfl]
  simp [exec]

theorem exec_skel_out {ca cb : List CInstr} {n lab v loc : Nat}
    {g log : List Nat}
    (hL : exec ca loc log = .escape lab v g)
    (h1 : lab ≠ n) (h2 : lab ≠ n + 1)
    (hcb : ∀ l', CInstr.bind l' ∈ cb → l' ≠ lab) :
    exec (ca ++ [CInstr.bind n] ++ cb ++ [CInstr.bind (n + 1)]) loc log =
      .escape lab v g := by
  rw [show ca ++ [CInstr.bind n] ++ cb ++ [CInstr.bind (n + 1)] =
      ca ++ ([CInstr.bind n] ++ (cb ++ [CInstr.bind (n + 1)])) by simp]
  rw [exec_append, hL]
  dsimp only
  have hfl : findLabel lab
      ([CInstr.bind n] ++ (cb ++ [CInstr.bind (n + 1)])) = none := by
    have h1' : n ≠ lab := fun h => h1 h.symm
    have h2' : n + 1 ≠ lab := fun h => h2 h.symm
    simp only [List.singleton_append, findLabel, if_neg h1', List.append_eq,
      List.nil_append]
    rw [findLabel_append, findLabel_eq_none hcb]
    simp [findLabel, h2']
  rw [hfl]

theorem exec_tail_halt_bind {cb : List CInstr} {v w dn : Nat}
    {g g' : List Nat} (h : exec cb v g = .halt w g') :
    exec (cb ++ [CInstr.bind dn]) v g = .halt w g' := by
  rw [exec_tail_halt _ h]
  simp [exec]

theorem exec_tail_escape_bind {cb : List CInstr} {lab v w dn : Nat}
    {g g' : List Nat} (h : exec cb v g = .escape lab w g')
    (hne : lab ≠ dn) :
    exec (cb ++ [CInstr.bind dn]) v g = .escape lab w g' := by
  refine exec_tail_escape _ h ?_
  have hne' : dn ≠ lab := fun h => hne h.symm
  simp [findLabel, hne']

theorem binds_ne_of_lt {b : LExpr} {rctx : ExprContext} {m x : Nat}
    (hx : x < m) :
    ∀ l', CInstr.bind l' ∈ (compileExpr b rctx m).1 → l' ≠ x := by
  intro l' hm
  have := compile_binds b rctx m l' hm
  omega

theorem spec_tail_value {b : LExpr} {cb : List CInstr}
    (HB : ctxSpec b cb .value) (dn : Nat) (v : Nat) (g : List Nat) :
    exec (cb ++ [CInstr.bind dn]) v g =
      .halt (evalLExpr b) (g ++ effectsOf b) :=
  exec_tail_halt_bind (HB v g)

theorem spec_tail_effect {b : LExpr} {cb : List CInstr}
    (HB : ctxSpec b cb .effect) (dn : Nat) (v : Nat) (g : List Nat) :
    ∃ w, exec (cb ++ [CInstr.bind dn]) v g =
      .halt w (g ++ effectsOf b) := by
  obtain ⟨w, hw⟩ := HB v g
  exact ⟨w, exec_tail_halt_bind hw⟩

theorem spec_tail_test {b : LExpr} {cb : List CInstr} {t f : Nat}
    (HB : ctxSpec b cb (.test t f)) (dn : Nat) (ht : t ≠ dn) (hf : f ≠ dn)
    (v : Nat) (g : List Nat) :
    ∃ w, exec (cb ++ [CInstr.bind dn]) v g =
      .escape (if truthy (evalLExpr b) then t else f) w
        (g ++ effectsOf b) := by
  obtain ⟨w, hw⟩ := HB v g
  refine ⟨w, exec_tail_escape_bind hw ?_⟩
  cases h : truthy (evalLExpr b) <;> simp [h, ht, hf]

theorem spec_tail_valueTest {b : LExpr} {cb : List CInstr} {t f : Nat}
    (HB : ctxSpec b cb (.valueTest t f)) (dn : Nat) (ht : t ≠ dn)
    (hf : f ≠ dn) (v : Nat) (g : List Nat) :
    ∃ w, exec (cb ++ [CInstr.bind dn]) v g =
      .escape (if truthy (evalLExpr b) then t else f) w
        (g ++ effectsOf b) ∧
      (truthy (evalLExpr b) = true → w = evalLExpr b) := by
  obtain ⟨w, hw, hww⟩ := HB v g
  refine ⟨w, exec_tail_escape_bind hw ?_, hww⟩
  cases h : truthy (evalLExpr b) <;> simp [h, ht, hf]

theorem spec_tail_testValue {b : LExpr} {cb : List CInstr} {t f : Nat}
    (HB : ctxSpec b cb (.testValue t f)) (dn : Nat) (ht : t ≠ dn)
    (hf : f ≠ dn) (v : Nat) (g : List Nat) :
    ∃ w, exec (cb ++ [CInstr.bind dn]) v g =
      .escape (if truthy (evalLExpr b) then t else f) w
        (g ++ effectsOf b) ∧
      (truthy (evalLExpr b) = false → w = evalLExpr b) := by
  obtain ⟨w, hw, hww⟩ := HB v g
  refine ⟨w, exec_tail_escape_bind hw ?_, hww⟩
  cases h : truthy (evalLExpr b) <;> simp [h, ht, hf]

theorem compile_correct (e : LExpr) :
    ∀ (ctx : ExprContext) (n : Nat), ctxBelow ctx n →
      ctxSpec e (compileExpr e ctx n).1 ctx := by
  induction e with
  | atom eff v =>
      intro ctx n _hb
      cases ctx with
      | effect =>
          simp only [ctxSpec, compileExpr]
          intro loc log
          exact ⟨v, by simp [exec, effectsOf]⟩
      | value =>
          simp only [ctxSpec, compileExpr]
          intro loc log
          simp [exec, evalLExpr, effectsOf]
      | test t f =>
          simp only [ctxSpec, compileExpr]
          intro loc log
          refine ⟨v, ?_⟩
          by_cases hv : v = 0 <;>
            simp [exec, findLabel, evalLExpr, effectsOf, truthy, hv]
      | valueTest t f =>
          simp only [ctxSpec, compileExpr]
          intro loc log
          refine ⟨v, ?_, fun _ => rfl⟩
          by_cases hv : v = 0 <;>
            simp [exec, findLabel, evalLExpr, effectsOf, truthy, hv]
      | testValue t f =>
          simp only [ctxSpec, compileExpr]
          intro loc log
          refine ⟨v, ?_, fun _ => rfl⟩
          by_cases hv : v = 0 <;>
            simp [exec, findLabel, evalLExpr, effectsOf, truthy, hv]
  | andE a b iha ihb =>
      intro ctx n hb
      cases ctx with
      | effect =>
          simp only [compileExpr, ctxSpec]
          intro loc log
          have hA2 := compile_le a (ExprContext.test n (n + 1)) (n + 2)
          have HA := iha (ExprContext.test n (n + 1)) (n + 2)
            ⟨by omega, by omega⟩
          simp only [ctxSpec] at HA
          obtain ⟨v, hv⟩ := HA loc log
          have HB := ihb ExprContext.effect
            (compileExpr a (ExprContext.test n (n + 1)) (n + 2)).2 trivial
          cases htA : truthy (evalLExpr a) with
          | true =>
              rw [htA, if_pos rfl] at hv
              obtain ⟨w, hw⟩ :=
                spec_tail_effect HB (n + 1) v (log ++ effectsOf a)
              refine ⟨w, ?_⟩
              rw [exec_skel_er hv, hw]
              simp [effectsOf, htA, List.append_assoc]
          | false =>
              rw [htA, if_neg Bool.false_ne_true] at hv
              have hcb : ∀ l', CInstr.bind l' ∈
                  (compileExpr b ExprContext.effect
                    (compileExpr a (ExprContext.test n (n + 1))
                      (n + 2)).2).1 → l' ≠ n + 1 :=
                binds_ne_of_lt (by omega)
              refine ⟨v, ?_⟩
              rw [exec_skel_dn hv hcb]
              simp [effectsOf, htA]
      | value =>
          simp only [compileExpr, ctxSpec]
          intro loc log
          have hA2 := compile_le a (ExprContext.testValue n (n + 1)) (n + 2)
          have HA := iha (ExprContext.testValue n (n + 1)) (n + 2)
            ⟨by omega, by omega⟩
          simp only [ctxSpec] at HA
          obtain ⟨v, hv, hvv⟩ := HA loc log
          have HB := ihb ExprContext.value
            (compileExpr a (ExprContext.testValue n (n + 1)) (n + 2)).2
            trivial
          cases htA : truthy (evalLExpr a) with
          | true =>
              rw [htA, if_pos rfl] at hv
              rw [exec_skel_er hv,
                spec_tail_value HB (n + 1) v (log ++ effectsOf a)]
              simp [evalLExpr, effectsOf, htA, List.append_assoc]
          | false =>
              rw [htA, if_neg Bool.false_ne_true] at hv
              rw [htA] at hvv
              have hcb : ∀ l', CInstr.bind l' ∈
                  (compileExpr b ExprContext.value
                    (compileExpr a (ExprContext.testValue n (n + 1))
                      (n + 2)).2).1 → l' ≠ n + 1 :=
                binds_ne_of_lt (by omega)
              rw [exec_skel_dn hv hcb, hvv rfl]
              simp [evalLExpr, effectsOf, htA]
      | test t f =>
          obtain ⟨hbt, hbf⟩ := hb
          simp only [compileExpr, ctxSpec]
          intro loc log
          have hA2 := compile_le a (ExprContext.test n f) (n + 2)
          have HA := iha (ExprContext.test n f) (n + 2)
            ⟨by omega, by omega⟩
          simp only [ctxSpec] at HA
          obtain ⟨v, hv⟩ := HA loc log
          have HB := ihb (ExprContext.test t f)
            (compileExpr a (ExprContext.test n f) (n + 2)).2
            ⟨by omega, by omega⟩
          cases htA : truthy (evalLExpr a) with
          | true =>
              rw [htA, if_pos rfl] at hv
              obtain ⟨w, hw⟩ := spec_tail_test HB (n + 1) (by omega) (by omega)
                v (log ++ effectsOf a)
              refine ⟨w, ?_⟩
              rw [exec_skel_er hv, hw]
              simp [evalLExpr, effectsOf, htA, List.append_assoc]
          | false =>
              rw [htA, if_neg Bool.false_ne_true] at hv
              have hcb : ∀ l', CInstr.bind l' ∈
                  (compileExpr b (ExprContext.test t f)
                    (compileExpr a (ExprContext.test n f)
                      (n + 2)).2).1 → l' ≠ f :=
                binds_ne_of_lt (by omega)
              refine ⟨v, ?_⟩
              rw [exec_skel_out hv (by omega) (by omega) hcb]
              simp [evalLExpr, effectsOf, htA]
      | valueTest t f =>
          obtain ⟨hbt, hbf⟩ := hb
          simp only [compileExpr, ctxSpec]
          intro loc log
          have hA2 := compile_le a (ExprContext.test n f) (n + 2)
          have HA := iha (ExprContext.test n f) (n + 2)
            ⟨by omega, by omega⟩
          simp only [ctxSpec] at HA
          obtain ⟨v, hv⟩ := HA loc log
          have HB := ihb (ExprContext.valueTest t f)
            (compileExpr a (ExprContext.test n f) (n + 2)).2
            ⟨by omega, by omega⟩
          cases htA : truthy (evalLExpr a) with
          | true =>
              rw [htA, if_pos rfl] at hv
              obtain ⟨w, hw, hww⟩ := spec_tail_valueTest HB (n + 1) (by omega)
                (by omega) v (log ++ effectsOf a)
              refine ⟨w, ?_, ?_⟩
              · rw [exec_skel_er hv, hw]
                simp [evalLExpr, effectsOf, htA, List.append_assoc]
              · intro hc
                simp only [evalLExpr, htA, if_pos rfl] at hc ⊢
                exact hww hc
          | false =>
              rw [htA, if_neg Bool.false_ne_true] at hv
              have hcb : ∀ l', CInstr.bind l' ∈
                  (compileExpr b (ExprContext.valueTest t f)
                    (compileExpr a (ExprContext.test n f)
                      (n + 2)).2).1 → l' ≠ f :=
                binds_ne_of_lt (by omega)
              refine ⟨v, ?_, ?_⟩
              · rw [exec_skel_out hv (by omega) (by omega) hcb]
                simp [evalLExpr, effectsOf, htA]
              · intro hc
                rw [show evalLExpr (LExpr.andE a b) = evalLExpr a from by
                  simp [evalLExpr, htA]] at hc
                rw [htA] at hc
                cases hc
      | testValue t f =>
          obtain ⟨hbt, hbf⟩ := hb
          simp only [compileExpr, ctxSpec]
          intro loc log
          have hA2 := compile_le a (ExprContext.testValue n f) (n + 2)
          have HA := iha (ExprContext.testValue n f) (n + 2)
            ⟨by omega, by omega⟩
          simp only [ctxSpec] at HA
          obtain ⟨v, hv, hvv⟩ := HA loc log
          have HB := ihb (ExprContext.testValue t f)
            (compileExpr a (ExprContext.testValue n f) (n + 2)).2
            ⟨by omega, by omega⟩
          cases htA : truthy (evalLExpr a) with
          | true =>
              rw [htA, if_pos rfl] at hv
              obtain ⟨w, hw, hww⟩ := spec_tail_testValue HB (n + 1) (by omega)
                (by omega) v (log ++ effectsOf a)
              refine ⟨w, ?_, ?_⟩
              · rw [exec_skel_er hv, hw]
                simp [evalLExpr, effectsOf, htA, List.append_assoc]
              · intro hc
                simp only [evalLExpr, htA, if_pos rfl] at hc ⊢
                exact hww hc
          | false =>
              rw [htA, if_neg Bool.false_ne_true] at hv
              have hcb : ∀ l', CInstr.bind l' ∈
                  (compileExpr b (ExprContext.testValue t f)
                    (compileExpr a (ExprContext.testValue n f)
                      (n + 2)).2).1 → l' ≠ f :=
                binds_ne_of_lt (by omega)
              refine ⟨v, ?_, ?_⟩
              · rw [exec_skel_out hv (by omega) (by omega) hcb]
                simp [evalLExpr, effectsOf, htA]
              · intro _
                rw [htA] at hvv
                rw [hvv rfl]
                simp [evalLExpr, htA]
  | orE a b iha ihb =>
      intro ctx n hb
      cases ctx with
      | effect =>
          simp only [compileExpr, ctxSpec]
          intro loc log
          have hA2 := compile_le a (ExprContext.test (n + 1) n) (n + 2)
          have HA := iha (ExprContext.test (n + 1) n) (n + 2)
            ⟨by omega, by omega⟩
          simp only [ctxSpec] at HA
          obtain ⟨v, hv⟩ := HA loc log
          have HB := ihb ExprContext.effect
            (compileExpr a (ExprContext.test (n + 1) n) (n + 2)).2 trivial
          cases htA : truthy (evalLExpr a) with
          | true =>
              rw [htA, if_pos rfl] at hv
              have hcb : ∀ l', CInstr.bind l' ∈
                  (compileExpr b ExprContext.effect
                    (compileExpr a (ExprContext.test (n + 1) n)
                      (n + 2)).2).1 → l' ≠ n + 1 :=
                binds_ne_of_lt (by omega)
              refine ⟨v, ?_⟩
              rw [exec_skel_dn hv hcb]
              simp [effectsOf, htA]
          | false =>
              rw [htA, if_neg Bool.false_ne_true] at hv
              obtain ⟨w, hw⟩ :=
                spec_tail_effect HB (n + 1) v (log ++ effectsOf a)
              refine ⟨w, ?_⟩
              rw [exec_skel_er hv, hw]
              simp [effectsOf, htA, List.append_assoc]
      | value =>
          simp only [compileExpr, ctxSpec]
          intro loc log
          have hA2 := compile_le a (ExprContext.valueTest (n + 1) n) (n + 2)
          have HA := iha (ExprContext.valueTest (n + 1) n) (n + 2)
            ⟨by omega, by omega⟩
          simp only [ctxSpec] at HA
          obtain ⟨v, hv, hvv⟩ := HA loc log
          have HB := ihb ExprContext.value
            (compileExpr a (ExprContext.valueTest (n + 1) n) (n + 2)).2
            trivial
          cases htA : truthy (evalLExpr a) with
          | true =>
              rw [htA, if_pos rfl] at hv
              rw [htA] at hvv
              have hcb : ∀ l', CInstr.bind l' ∈
                  (compileExpr b ExprContext.value
                    (compileExpr a (ExprContext.valueTest (n + 1) n)
                      (n + 2)).2).1 → l' ≠ n + 1 :=
                binds_ne_of_lt (by omega)
              rw [exec_skel_dn hv hcb, hvv rfl]
              simp [evalLExpr, effectsOf, htA]
          | false =>
              rw [htA, if_neg Bool.false_ne_true] at hv
              rw [exec_skel_er hv,
                spec_tail_value HB (n + 1) v (log ++ effectsOf a)]
              simp [evalLExpr, effectsOf, htA, List.append_assoc]
      | test t f =>
          obtain ⟨hbt, hbf⟩ := hb
          simp only [compileExpr, ctxSpec]
          intro loc log
          have hA2 := compile_le a (ExprContext.test t n) (n + 2)
          have HA := iha (ExprContext.test t n) (n + 2)
            ⟨by omega, by omega⟩
          simp only [ctxSpec] at HA
          obtain ⟨v, hv⟩ := HA loc log
          have HB := ihb (ExprContext.test t f)
            (compileExpr a (ExprContext.test t n) (n + 2)).2
            ⟨by omega, by omega⟩
          cases htA : truthy (evalLExpr a) with
          | true =>
              rw [htA, if_pos rfl] at hv
              have hcb : ∀ l', CInstr.bind l' ∈
                  (compileExpr b (ExprContext.test t f)
                    (compileExpr a (ExprContext.test t n)
                      (n + 2)).2).1 → l' ≠ t :=
                binds_ne_of_lt (by omega)
              refine ⟨v, ?_⟩
              rw [exec_skel_out hv (by omega) (by omega) hcb]
              simp [evalLExpr, effectsOf, htA]
          | false =>
              rw [htA, if_neg Bool.false_ne_true] at hv
              obtain ⟨w, hw⟩ := spec_tail_test HB (n + 1) (by omega) (by omega)
                v (log ++ effectsOf a)
              refine ⟨w, ?_⟩
              rw [exec_skel_er hv, hw]
              simp [evalLExpr, effectsOf, htA, List.append_assoc]
      | valueTest t f =>
          obtain ⟨hbt, hbf⟩ := hb
          simp only [compileExpr, ctxSpec]
          intro loc log
          have hA2 := compile_le a (ExprContext.valueTest t n) (n + 2)
          have HA := iha (ExprContext.valueTest t n) (n + 2)
            ⟨by omega, by omega⟩
          simp only [ctxSpec] at HA
          obtain ⟨v, hv, hvv⟩ := HA loc log
          have HB := ihb (ExprContext.valueTest t f)
            (compileExpr a (ExprContext.valueTest t n) (n + 2)).2
            ⟨by omega, by omega⟩
          cases htA : truthy (evalLExpr a) with
          | true =>
              rw [htA, if_pos rfl] at hv
              have hcb : ∀ l', CInstr.bind l' ∈
                  (compileExpr b (ExprContext.valueTest t f)
                    (compileExpr a (ExprContext.valueTest t n)
                      (n + 2)).2).1 → l' ≠ t :=
                binds_ne_of_lt (by omega)
              refine ⟨v, ?_, ?_⟩
              · rw [exec_skel_out hv (by omega) (by omega) hcb]
                simp [evalLExpr, effectsOf, htA]
              · intro _
                rw [htA] at hvv
                rw [hvv rfl]
                simp [evalLExpr, htA]
          | false =>
              rw [htA, if_neg Bool.false_ne_true] at hv
              obtain ⟨w, hw, hww⟩ := spec_tail_valueTest HB (n + 1) (by omega)
                (by omega) v (log ++ effectsOf a)
              refine ⟨w, ?_, ?_⟩
              · rw [exec_skel_er hv, hw]
                simp [evalLExpr, effectsOf, htA, List.append_assoc]
              · intro hc
                simp only [evalLExpr, htA, Bool.false_eq_true, if_false,
                  if_neg] at hc ⊢
                exact hww hc
      | testValue t f =>
          obtain ⟨hbt, hbf⟩ := hb
          simp only [compileExpr, ctxSpec]
          intro loc log
          have hA2 := compile_le a (ExprContext.test t n) (n + 2)
          have HA := iha (ExprContext.test t n) (n + 2)
            ⟨by omega, by omega⟩
          simp only [ctxSpec] at HA
          obtain ⟨v, hv⟩ := HA loc log
          have HB := ihb (ExprContext.testValue t f)
            (compileExpr a (ExprContext.test t n) (n + 2)).2
            ⟨by omega, by omega⟩
          cases htA : truthy (evalLExpr a) with
          | true =>
              rw [htA, if_pos rfl] at hv
              have hcb : ∀ l', CInstr.bind l' ∈
                  (compileExpr b (ExprContext.testValue t f)
                    (compileExpr a (ExprContext.test t n)
                      (n + 2)).2).1 → l' ≠ t :=
                binds_ne_of_lt (by omega)
              refine ⟨v, ?_, ?_⟩
              · rw [exec_skel_out hv (by omega) (by omega) hcb]
                simp [evalLExpr, effectsOf, htA]
              · intro hc
                rw [show evalLExpr (LExpr.orE a b) = evalLExpr a from by
                  simp [evalLExpr, htA]] at hc
                rw [htA] at hc
                cases hc
          | false =>
              rw [htA, if_neg Bool.false_ne_true] at hv
              obtain ⟨w, hw, hww⟩ := spec_tail_testValue HB (n + 1) (by omega)
                (by omega) v (log ++ effectsOf a)
              refine ⟨w, ?_, ?_⟩
              · rw [exec_skel_er hv, hw]
                simp [evalLExpr, effectsOf, htA, List.append_assoc]
              · intro hc
                simp only [evalLExpr, htA, Bool.false_eq_true, if_false,
                  if_neg] at hc ⊢
                exact hww hc

/-- C4: for `a && b` compiled under the value-producing context, running
the emitted code from any initial location contents yields exactly the
JavaScript short-circuit semantics: the result is `a`'s value with only
`a`'s side effects when `a` is falsy (`b` is never evaluated), and `b`'s
value with `a`'s then `b`'s side effects — each exactly once — when `a`
is truthy; concretely `a = 0` gives result `0` with `b` unevaluated, and
`a = 1, b = 2` gives result `2`. -/
theorem logical_and_value_semantics :
    (∀ (a b : LExpr) (loc : Nat),
        exec (compileExpr (.andE a b) .value 0).1 loc [] =
          .halt (evalLExpr (.andE a b)) (effectsOf (.andE a b))) ∧
    (∀ (a b : LExpr) (loc : Nat), truthy (evalLExpr a) = false →
        exec (compileExpr (.andE a b) .value 0).1 loc [] =
          .halt (evalLExpr a) (effectsOf a)) ∧
    (∀ (a b : LExpr) (loc : Nat), truthy (evalLExpr a) = true →
        exec (compileExpr (.andE a b) .value 0).1 loc [] =
          .halt (evalLExpr b) (effectsOf a ++ effectsOf b)) ∧
    (exec (compileExpr (.andE (.atom 0 0) (.atom 1 2)) .value 0).1 7 [] =
        .halt 0 [0]) ∧
    (exec (compileExpr (.andE (.atom 0 1) (.atom 1 2)) .value 0).1 7 [] =
        .halt 2 [0, 1]) := by
  refine ⟨?_, ?_, ?_, ?_, ?_⟩
  · intro a b loc
    have h := compile_correct (.andE a b) .value 0 trivial
    simp only [ctxSpec] at h
    simpa using h loc []
  · intro a b loc hf
    have h := compile_correct (.andE a b) .value 0 trivial
    simp only [ctxSpec] at h
    rw [h loc []]
    simp [evalLExpr, effectsOf, hf]
  · intro a b loc ht
    have h := compile_correct (.andE a b) .value 0 trivial
    simp only [ctxSpec] at h
    rw [h loc []]
    simp [evalLExpr, effectsOf, ht]
  · have h := compile_correct (.andE (.atom 0 0) (.atom 1 2)) .value 0
      trivial
    simp only [ctxSpec] at h
    rw [h 7 []]
    decide
  · have h := compile_correct (.andE (.atom 0 1) (.atom 1 2)) .value 0
      trivial
    simp only [ctxSpec] at h
    rw [h 7 []]
    decide

theorem logical_and_value_semantics_witness :
    truthy (evalLExpr (.atom 0 0)) = false ∧
    exec (compileExpr (.andE (.atom 0 0) (.atom 5 9)) .value 0).1 3 [] =
      .halt (evalLExpr (.atom 0 0)) (effectsOf (.atom 0 0)) ∧
    truthy (evalLExpr (.atom 2 4)) = true ∧
    exec (compileExpr (.andE (.atom 2 4) (.atom 5 9)) .value 0).1 3 [] =
      .halt (evalLExpr (.atom 5 9))
        (effectsOf (.atom 2 4) ++ effectsOf (.atom 5 9)) := by
  refine ⟨by decide, ?_, by decide, ?_⟩
  · exact logical_and_value_semantics.2.1 (.atom 0 0) (.atom 5 9) 3
      (by decide)
  · exact logical_and_value_semantics.2.2.1 (.atom 2 4) (.atom 5 9) 3
      (by decide)

theorem try_exit_resets_stack_depth_witness :
    walkToTarget (·.isBreakTarget 2)
        [NestedStatement.iteration 8 3, .tryCatch, .iteration 9 2,
         .breakable 2 0] 0 =
      some ⟨[.iteration 8 3, .tryCatch, .iteration 9 2],
            [.drop 3, .popTryHandler], 2, .breakable 2 0⟩ ∧
    droppedSlots
        ((⟨[.iteration 8 3, .tryCatch, .iteration 9 2],
           [.drop 3, .popTryHandler], 2,
           .breakable 2 0⟩ : WalkResult).actions ++
          [.drop (⟨[.iteration 8 3, .tryCatch, .iteration 9 2],
            [.drop 3, .popTryHandler], 2,
            .breakable 2 0⟩ : WalkResult).depth]) =
      slotsSum (⟨[.iteration 8 3, .tryCatch, .iteration 9 2],
        [.drop 3, .popTryHandler], 2,
        .breakable 2 0⟩ : WalkResult).exited := by
  refine ⟨by decide, ?_⟩
  exact try_exit_resets_stack_depth.2.2.1 2
    [NestedStatement.iteration 8 3, .tryCatch, .iteration 9 2,
     .breakable 2 0]
    ⟨[.iteration 8 3, .tryCatch, .iteration 9 2],
     [.drop 3, .popTryHandler], 2, .breakable 2 0⟩ (by decide)

end V8


